import Mathlib

/-!
Verification of the recommendation-lifecycle core of the `neutron-public`
trading bot: the performance ledger (`src/performance.ts`, here
`recordRecommendation`, `getPendingReviews`, `batchUpdateOutcomes`,
`recordWeeklyScore`, `addStrategyNote`), the scheduler's review jobs
(`src/scheduler.ts`: `getTodayET`, the nightly-review extraction, the
weekly rollup), and the knowledge-store maintenance
(`src/brain-manager.ts`: `consolidateOldFiles`).

Modelling conventions:
* JavaScript strings are modelled as `List Char` (`Str`); JS string
  operations (`<=`, `startsWith`, `slice`, `trim`, concatenation) become
  the corresponding list operations.  All strings the program compares are
  ASCII, where UTF-16 code-unit order agrees with `Char` order.
* Timestamps are `Int` milliseconds since the Unix epoch (`Date.now()`).
  JS `Date` civil/calendar conversions are modelled by exact integer
  arithmetic (`civilFromDays` / `daysFromCivil`, the standard civil-date
  algorithms, which agree with ECMAScript's date algorithms).
  `Int` division `/` in Lean is Euclidean and the divisors below are
  positive, so `/` is floor division, matching JS `Date` day arithmetic.
* The host process runs with its system timezone set to UTC (the source
  states "Server runs in UTC"), so `new Date(ms).getDay()` etc. read UTC
  fields; `America/New_York` wall time is UTC minus an offset of 4 or 5
  hours (EDT / EST), passed explicitly as `etOffset`.
* File persistence (`loadPerformance` / `savePerformance`: whole-document
  read-modify-write) is modelled by explicit state passing: each store
  operation takes the loaded document and returns the saved one.
-/

namespace Neutron

/-- JS strings, modelled as lists of characters. -/
abbrev Str := List Char

/-- JS string comparison `a <= b`: lexicographic on code units, a proper
prefix is smaller. -/
def strLeB : Str → Str → Bool
  | [], _ => true
  | _ :: _, [] => false
  | a :: as, b :: bs => if a = b then strLeB as bs else decide (a < b)

/-- JS string comparison `a < b`. -/
def strLtB (a b : Str) : Bool := strLeB a b && !decide (a = b)

/-- The whitespace class of JS `\s` and `String.trim`, restricted to the
ASCII whitespace characters that can occur in the modelled strings. -/
def jsWhitespace (c : Char) : Bool :=
  c = ' ' || c = '\t' || c = '\n' || c = '\r' || c = '\x0b' || c = '\x0c'

/-- JS `String.prototype.trim`: strip leading and trailing whitespace. -/
def jsTrim (s : Str) : Str :=
  ((s.dropWhile jsWhitespace).reverse.dropWhile jsWhitespace).reverse

/-- Milliseconds per day; JS `Date` time values count uniform UTC days. -/
def msPerDay : Int := 86400000

/-- The UTC calendar day (days since 1970-01-01) holding a JS time value:
what `new Date(ms).toISOString().split('T')[0]` denotes. -/
def utcDayOf (ms : Int) : Int := ms / msPerDay

/-- Civil date (year, month 1-12, day 1-31) of a day count since
1970-01-01 — the calendar arithmetic behind JS `Date.prototype.toISOString`. -/
def civilFromDays (z : Int) : Int × Nat × Nat :=
  let z' := z + 719468
  let era : Int := z' / 146097
  let doe : Nat := (z' - era * 146097).toNat
  let yoe : Nat := (doe - doe / 1460 + doe / 36524 - doe / 146096) / 365
  let doy : Nat := doe - (365 * yoe + yoe / 4 - yoe / 100)
  let mp : Nat := (5 * doy + 2) / 153
  let d : Nat := doy - (153 * mp + 2) / 5 + 1
  let m : Nat := if mp < 10 then mp + 3 else mp - 9
  (era * 400 + yoe + (if mp < 10 then 0 else 1), m, d)

/-- Day count since 1970-01-01 of a civil date — the calendar arithmetic
behind JS `new Date("YYYY-MM-DD")` for a valid embedded date. -/
def daysFromCivil (y : Int) (m d : Nat) : Int :=
  let y' : Int := if m ≤ 2 then y - 1 else y
  let era : Int := y' / 400
  let yoe : Nat := (y' - era * 400).toNat
  let mp : Nat := if 2 < m then m - 3 else m + 9
  let doy : Nat := (153 * mp + 2) / 5 + (d - 1)
  let doe : Nat := yoe * 365 + yoe / 4 - yoe / 100 + doy
  era * 146097 + (doe : Int) - 719468

/-- Whether a year is a leap year (proleptic Gregorian, as JS `Date`). -/
def isLeapYear (y : Int) : Bool := y % 4 = 0 && (y % 100 ≠ 0 || y % 400 = 0)

/-- Days in a month, for JS ISO date-string validity. -/
def daysInMonth (y : Int) (m : Nat) : Nat :=
  if m = 2 then (if isLeapYear y then 29 else 28)
  else if m = 4 || m = 6 || m = 9 || m = 11 then 30 else 31

/-- Whether `new Date("YYYY-MM-DD")` yields a valid date: ECMAScript
date-only ISO parsing rejects out-of-range month or day components. -/
def validCivil (y : Int) (m d : Nat) : Bool :=
  1 ≤ m && m ≤ 12 && 1 ≤ d && d ≤ daysInMonth y m

/-- Decimal digits, most significant first; the fuel argument (any bound
above the digit count, here the number itself) keeps the recursion
structural so that terms evaluate inside the kernel. -/
def natDigitsAux : Nat → Nat → Str
  | 0, _ => []
  | fuel + 1, n =>
    if n < 10 then [Nat.digitChar n]
    else natDigitsAux fuel (n / 10) ++ [Nat.digitChar (n % 10)]

/-- Decimal digits of a natural number, most significant first. -/
def natDigits (n : Nat) : Str := natDigitsAux (n + 1) n

/-- Zero-pad to two digits, as JS `toISOString` renders months and days. -/
def pad2 (n : Nat) : Str := if n < 10 then '0' :: natDigits n else natDigits n

/-- Zero-pad to three digits (`toISOString` milliseconds). -/
def pad3 (n : Nat) : Str :=
  if n < 10 then '0' :: '0' :: natDigits n
  else if n < 100 then '0' :: natDigits n else natDigits n

/-- Zero-pad to four digits (`toISOString` years; the program's dates all
lie in years 1970-9999, where JS uses the plain four-digit form). -/
def pad4 (n : Nat) : Str :=
  if n < 10 then '0' :: '0' :: '0' :: natDigits n
  else if n < 100 then '0' :: '0' :: natDigits n
  else if n < 1000 then '0' :: natDigits n else natDigits n

/-- The `YYYY-MM-DD` rendering of a day count: what
`new Date(ms).toISOString().split('T')[0]` produces. -/
def isoOfDay (z : Int) : Str :=
  let c := civilFromDays z
  pad4 c.1.toNat ++ '-' :: pad2 c.2.1 ++ '-' :: pad2 c.2.2

/-- Full `Date.prototype.toISOString` of a time value
(`YYYY-MM-DDTHH:MM:SS.mmmZ`), used for `reviewedAt` stamps. -/
def isoDateTime (ms : Int) : Str :=
  let day := utcDayOf ms
  let r : Nat := (ms - day * msPerDay).toNat
  isoOfDay day ++ 'T' :: pad2 (r / 3600000) ++ ':' :: pad2 (r / 60000 % 60) ++
    ':' :: pad2 (r / 1000 % 60) ++ '.' :: pad3 (r % 1000) ++ ['Z']

/-- Digit characters of JS `Number.prototype.toString(36)`: `0-9` then `a-z`. -/
def b36Char (n : Nat) : Char :=
  if n < 10 then Nat.digitChar n else Char.ofNat (87 + n)

/-- Base-36 digits, most significant first, by structural fuel recursion. -/
def natToB36Aux : Nat → Nat → Str
  | 0, _ => []
  | fuel + 1, n =>
    if n < 36 then [b36Char n]
    else natToB36Aux fuel (n / 36) ++ [b36Char (n % 36)]

/-- Base-36 digits of a natural number, most significant first:
JS `n.toString(36)` for a non-negative integer. -/
def natToB36 (n : Nat) : Str := natToB36Aux (n + 1) n

/-- JS `n.toString(36)` on an integer (negative values get a sign;
`Date.now()` is in practice always non-negative). -/
def intToB36 (i : Int) : Str :=
  if i < 0 then '-' :: natToB36 i.natAbs else natToB36 i.toNat

/-- Numeric value of a base-36 digit character. -/
def b36Val (c : Char) : Nat :=
  if c.toNat ≤ 57 then c.toNat - 48 else c.toNat - 87

/-- Read back a base-36 digit string (most significant first). -/
def b36Decode (s : Str) : Nat := s.foldl (fun a c => a * 36 + b36Val c) 0

/-! ## The performance ledger (`src/performance.ts`) -/

/-- A call's direction (`'bullish' | 'bearish' | 'neutral'`). -/
inductive Direction where
  | bullish
  | bearish
  | neutral
  deriving DecidableEq

/-- A recommendation's outcome (`'correct' | 'wrong' | 'partial' |
'pending'`); `partialO` models the source's `'partial'` (a Lean keyword). -/
inductive Outcome where
  | correct
  | wrong
  | partialO
  | pending
  deriving DecidableEq

/-- Interface `Recommendation` of `performance.ts`; the three optional
fields are absent (`none`) until a review fills them. -/
structure Recommendation where
  id : Str
  date : Str
  ticker : Str
  direction : Direction
  confidence : Int
  type : Str
  summary : Str
  outcome : Option Outcome
  reviewedAt : Option Str
  reviewNotes : Option Str
  deriving DecidableEq

/-- Interface `WeeklyScore` of `performance.ts`; `partialO` models the
source's `partial` field. -/
structure WeeklyScore where
  weekOf : Str
  totalCalls : Nat
  correct : Nat
  wrong : Nat
  partialO : Nat
  accuracy : Nat
  bestCall : Str
  worstCall : Str
  lesson : Str
  deriving DecidableEq

/-- Interface `PerformanceData`: the whole persisted document. -/
structure PerformanceData where
  recommendations : List Recommendation
  weeklyScores : List WeeklyScore
  strategyNotes : List Str
  lastNightlyReview : Str
  lastWeeklyReview : Str
  deriving DecidableEq

/-- `defaultPerformance()`: the empty document a missing or corrupt file
falls back to. -/
def defaultPerformance : PerformanceData :=
  { recommendations := []
    weeklyScores := []
    strategyNotes := []
    lastNightlyReview := []
    lastWeeklyReview := [] }

/-- JS `array.slice(-n)`: the last `n` elements (the whole array when it is
shorter). -/
def sliceLast (n : Nat) (l : List α) : List α := l.drop (l.length - n)

/-- The argument of `recordRecommendation`: a recommendation minus its
`id` (`Omit<Recommendation, 'id'>`). -/
structure NewRecommendation where
  date : Str
  ticker : Str
  direction : Direction
  confidence : Int
  type : Str
  summary : Str
  deriving DecidableEq

/-- The id `recordRecommendation` assigns:
`` `${rec.date}-${rec.ticker}-${Date.now().toString(36)}` ``. -/
def mkRecId (date ticker : Str) (now : Int) : Str :=
  date ++ '-' :: ticker ++ '-' :: intToB36 now

/-- The entry `recordRecommendation` appends: the argument's fields plus
the generated id (`{ ...rec, id }`). -/
def recordedRec (now : Int) (rec : NewRecommendation) : Recommendation :=
  { id := mkRecId rec.date rec.ticker now
    date := rec.date
    ticker := rec.ticker
    direction := rec.direction
    confidence := rec.confidence
    type := rec.type
    summary := rec.summary
    outcome := none
    reviewedAt := none
    reviewNotes := none }

/-- `recordRecommendation(rec)` at time `now`: assign the id, append, and
cap the ledger at the last 200 entries. -/
def recordRecommendation (now : Int) (rec : NewRecommendation)
    (data : PerformanceData) : PerformanceData :=
  let recs := data.recommendations ++ [recordedRec now rec]
  { data with
    recommendations := if 200 < recs.length then sliceLast 200 recs else recs }

/-- The outcome filter of `getPendingReviews`:
`r.outcome === undefined || r.outcome === 'pending'`. -/
def isPendingOutcome : Option Outcome → Bool
  | none => true
  | some .pending => true
  | some _ => false

/-- `getPendingReviews()` at time `now`: entries with undefined-or-pending
outcome whose date is at most the **UTC** calendar date of `now` minus 24
hours (`new Date(Date.now() - 24*60*60*1000).toISOString().split('T')[0]`). -/
def getPendingReviews (now : Int) (data : PerformanceData) :
    List Recommendation :=
  let oneDayAgo := isoOfDay (utcDayOf (now - msPerDay))
  (data.recommendations.filter fun r => isPendingOutcome r.outcome).filter
    fun r => strLeB r.date oneDayAgo

/-- One entry of the list passed to `batchUpdateOutcomes`; its `outcome` is
one of the three terminal values by the callers' construction. -/
structure OutcomeUpdate where
  id : Str
  outcome : Outcome
  notes : Str
  deriving DecidableEq

/-- Apply one update to the first recommendation bearing its id
(`data.recommendations.find(r => r.id === update.id)` then mutation);
absent ids change nothing. -/
def applyUpdate (now : Int) (u : OutcomeUpdate) :
    List Recommendation → List Recommendation
  | [] => []
  | r :: rs =>
    if r.id = u.id then
      { r with
        outcome := some u.outcome
        reviewedAt := some (isoDateTime now)
        reviewNotes := some u.notes } :: rs
    else r :: applyUpdate now u rs

/-- `batchUpdateOutcomes(updates)` at time `now`: apply each update in
order; unknown ids are silently ignored. -/
def batchUpdateOutcomes (now : Int) (updates : List OutcomeUpdate)
    (data : PerformanceData) : PerformanceData :=
  { data with
    recommendations :=
      updates.foldl (fun recs u => applyUpdate now u recs)
        data.recommendations }

/-- `updateOutcome(id, outcome, notes)`: the single-entry form. -/
def updateOutcome (now : Int) (id : Str) (outcome : Outcome) (notes : Str)
    (data : PerformanceData) : PerformanceData :=
  { data with
    recommendations := applyUpdate now ⟨id, outcome, notes⟩
      data.recommendations }

/-- `recordWeeklyScore(score)`: append and cap at the last 52 entries. -/
def recordWeeklyScore (score : WeeklyScore) (data : PerformanceData) :
    PerformanceData :=
  let l := data.weeklyScores ++ [score]
  { data with weeklyScores := if 52 < l.length then sliceLast 52 l else l }

/-- `addStrategyNote(note)` at time `now`: store the note prefixed with the
current UTC date in brackets, and cap at the last 30 notes. -/
def addStrategyNote (now : Int) (note : Str) (data : PerformanceData) :
    PerformanceData :=
  let l := data.strategyNotes ++
    ['[' :: isoOfDay (utcDayOf now) ++ ']' :: ' ' :: note]
  { data with strategyNotes := if 30 < l.length then sliceLast 30 l else l }

/-- `markNightlyReview()`: record today's UTC date as the last nightly
review day. -/
def markNightlyReview (now : Int) (data : PerformanceData) :
    PerformanceData :=
  { data with lastNightlyReview := isoOfDay (utcDayOf now) }

/-- `markWeeklyReview()`: record today's UTC date as the last weekly
review day. -/
def markWeeklyReview (now : Int) (data : PerformanceData) :
    PerformanceData :=
  { data with lastWeeklyReview := isoOfDay (utcDayOf now) }

/-- `getTodayET()` of the scheduler: the calendar date of `now` shifted to
`America/New_York` wall time, `etOffset` milliseconds behind UTC (18000000
under EST, 14400000 under EDT; the server clock itself runs UTC). -/
def getTodayET (now etOffset : Int) : Str := isoOfDay (utcDayOf (now - etOffset))

/-! ## The scheduler's weekly rollup (`src/scheduler.ts`, `weeklyReview`) -/

/-- The terminal-outcome test of the weekly filter:
`r.outcome && r.outcome !== 'pending'` (JS truthiness: any of the three
terminal values). -/
def isTerminal : Option Outcome → Bool
  | some .correct => true
  | some .wrong => true
  | some .partialO => true
  | _ => false

/-- Floor of the base-2 logarithm (0 at 0); the fuel argument keeps the
halving recursion structural. -/
def natLog2Aux : Nat → Nat → Nat
  | 0, _ => 0
  | fuel + 1, n => if n ≤ 1 then 0 else natLog2Aux fuel (n / 2) + 1

/-- `⌊log₂ n⌋` for `n ≥ 1` (0 at 0). -/
def natLog2 (n : Nat) : Nat := natLog2Aux n n

/-- `⌊log₂ (a / b)⌋` for `a, b ≥ 1`. -/
def fracFloorLog2 (a b : Nat) : Int :=
  if b * 2 ^ natLog2 a ≤ a * 2 ^ natLog2 b then
    (natLog2 a : Int) - natLog2 b
  else (natLog2 a : Int) - natLog2 b - 1

/-- The integer nearest `a / b`, ties to even (IEEE 754 default
rounding). -/
def roundFracHalfEven (a b : Nat) : Nat :=
  if 2 * (a % b) < b then a / b
  else if b < 2 * (a % b) then a / b + 1
  else if a / b % 2 = 0 then a / b else a / b + 1

/-- The IEEE 754 binary64 double nearest the fraction `a / b`, as a pair
`(m, e)` denoting `m * 2 ^ e` (53-bit significand, round to nearest, ties
to even).  Faithful on zero and the normal, non-overflowing range, which
covers every value the modelled arithmetic produces. -/
def fl64Frac (a b : Nat) : Nat × Int :=
  if a = 0 then (0, 0)
  else
    let e : Int := fracFloorLog2 a b - 52
    if 0 ≤ e then (roundFracHalfEven a (b * 2 ^ e.toNat), e)
    else (roundFracHalfEven (a * 2 ^ (-e).toNat) b, e)

/-- JS `Math.round` applied to the double `m * 2 ^ e`: the closest
integer to its exact value, ties toward positive infinity. -/
def jsRoundScaled (m : Nat) (e : Int) : Nat :=
  if 0 ≤ e then m * 2 ^ e.toNat
  else (2 * m + 2 ^ (-e).toNat) / 2 ^ ((-e).toNat + 1)

/-- `Math.round((correct + partial * 0.5) / thisWeek.length * 100)`
computed as the source computes it, in binary64.  `partial * 0.5` and the
sum `correct + partial * 0.5` are exact in binary64 (dyadic values below
`2^53`), so the first rounding is the division — the double nearest
`(2*correct + partialO) / (2*total)` — and the second is the
multiplication by 100, a shift of the division result's significand;
`Math.round` then maps the resulting double to the closest integer, half
up.  The rollup's guard ensures `2 ≤ total`, so the `total = 0` division
(JS `Infinity`) is never reached. -/
def weeklyAccuracy (correct partialO total : Nat) : Nat :=
  let d1 := fl64Frac (2 * correct + partialO) (2 * total)
  let d2 := fl64Frac (d1.1 * 100) 1
  jsRoundScaled d2.1 (d2.2 + d1.2)

/-- The exact round-half-up of `(correct + partial/2) / total * 100`, the
value the spec's `round(...)` formula denotes in exact arithmetic. -/
def exactAccuracy (correct partialO total : Nat) : Nat :=
  ((2 * correct + partialO) * 100 + total) / (2 * total)


/-- The week filter of `weeklyReview`:
`r.date >= oneWeekAgo && r.outcome && r.outcome !== 'pending'`, where
`oneWeekAgo` is the UTC date string of `now - 7 days`. -/
def weeklyEligible (now : Int) (perf : PerformanceData) :
    List Recommendation :=
  perf.recommendations.filter fun r =>
    strLeB (isoOfDay (utcDayOf (now - 7 * msPerDay))) r.date &&
      isTerminal r.outcome

/-- The `WeeklyScore` the rollup records: `weekOf` is `oneWeekAgo` (the
UTC date of `now - 7 days`), the counts come from the week filter, and
`accuracy` is the rounded percentage. -/
def weeklyScoreOf (now : Int) (bestCall worstCall lesson : Str)
    (perf : PerformanceData) : WeeklyScore :=
  let thisWeek := weeklyEligible now perf
  let correct := (thisWeek.filter fun r =>
    r.outcome = some Outcome.correct).length
  { weekOf := isoOfDay (utcDayOf (now - 7 * msPerDay))
    totalCalls := thisWeek.length
    correct := correct
    wrong := (thisWeek.filter fun r =>
      r.outcome = some Outcome.wrong).length
    partialO := (thisWeek.filter fun r =>
      r.outcome = some Outcome.partialO).length
    accuracy := weeklyAccuracy correct
      (thisWeek.filter fun r => r.outcome = some Outcome.partialO).length
      thisWeek.length
    bestCall := bestCall
    worstCall := worstCall
    lesson := lesson }

/-- The `weeklyReview` job's state transition (its success path, after the
collaborator call returned).  `bestCall`, `worstCall` and `lesson` are the
three description strings as already extracted from the collaborator's
narrative (or their fixed fallbacks); no claim depends on that keyword
extraction, so its regexes are not modelled.  On the failure path the
`catch` swallows the error before `recordWeeklyScore` and
`markWeeklyReview`, leaving the document untouched. -/
def weeklyReviewUpdate (now etOffset : Int) (bestCall worstCall lesson : Str)
    (perf : PerformanceData) : PerformanceData :=
  if perf.lastWeeklyReview = getTodayET now etOffset then perf
  else if (weeklyEligible now perf).length < 2 then markWeeklyReview now perf
  else markWeeklyReview now
    (recordWeeklyScore (weeklyScoreOf now bestCall worstCall lesson perf)
      perf)

/-! ## Nightly-review extraction (`src/scheduler.ts`, `nightlyReview`)

The source collects candidate segments with the global regex
`/REVIEW:\s*([^\n]+)/gi` and parses each segment with
`/REVIEW:\s*\[?([^\]|]+)\]?\s*\|\s*(correct|wrong|partial|skip)\s*\|\s*(.+)/i`;
a trailing `/LESSON:\s*(.+)/i` match becomes a strategy note.  The model
reproduces the regexes' leftmost-match scanning and the one place their
backtracking matters (a greedy `\s*` that ran into a newline or the end
hands its last non-newline whitespace character back to the following
`[^\n]+` / `(.+)`). -/

/-- Case-insensitive character comparison (the regexes' `/i` flag). -/
def ciEq (a b : Char) : Bool := a.toLower = b.toLower

/-- Match a literal pattern case-insensitively at the head; return the rest. -/
def ciStrip : Str → Str → Option Str
  | [], s => some s
  | _ :: _, [] => none
  | p :: ps, c :: cs => if ciEq p c then ciStrip ps cs else none

/-- The literal of the review-line regexes. -/
def reviewPat : Str := "review:".toList

/-- The literal of the lesson regex. -/
def lessonPat : Str := "lesson:".toList

/-- Backtracking step shared by `\s*([^\n]+)` and `\s*(.+)`: when the
greedy `\s*` ran to a newline or to the end, the capture falls back to the
last non-newline whitespace character; `k` is the index right after it. -/
def wsBacktrackIndex (ws : Str) : Nat :=
  ws.length - (ws.reverse.takeWhile (· = '\n')).length

/-- The capture of `\s*(.+)` starting at `s` (the notes / lesson tail):
greedy whitespace, then at least one non-newline character up to the next
newline. -/
def wsCapture (s : Str) : Option Str :=
  let ws := s.takeWhile jsWhitespace
  let rest := s.drop ws.length
  match rest.head? with
  | some c =>
    if c = '\n' then
      let k := wsBacktrackIndex ws
      if k = 0 then none else some ((ws.drop (k - 1)).take 1)
    else some (rest.takeWhile (· ≠ '\n'))
  | none =>
    let k := wsBacktrackIndex ws
    if k = 0 then none else some ((ws.drop (k - 1)).take 1)

/-- The backtracking arm of `\s*([^\n]+)`: at a newline or at the end, the
capture falls back to the last non-newline whitespace character (none when
there is none). -/
def backtrackMatch (pfx ws rest : Str) : Option (Str × Str) :=
  if wsBacktrackIndex ws = 0 then none
  else some (pfx ++ ws.take (wsBacktrackIndex ws),
    ws.drop (wsBacktrackIndex ws) ++ rest)

/-- The `\s*([^\n]+)` tail of the segment regex, applied to what follows
the matched keyword (`pfx` is the keyword text as matched). -/
def tryMatchAfter (pfx after : Str) : Option (Str × Str) :=
  match (after.drop (after.takeWhile jsWhitespace).length).head? with
  | some c =>
    if c = '\n' then
      backtrackMatch pfx (after.takeWhile jsWhitespace)
        (after.drop (after.takeWhile jsWhitespace).length)
    else
      some (pfx ++ after.takeWhile jsWhitespace ++
        (after.drop (after.takeWhile jsWhitespace).length).takeWhile
          (· ≠ '\n'),
        (after.drop (after.takeWhile jsWhitespace).length).drop
          (((after.drop (after.takeWhile jsWhitespace).length).takeWhile
            (· ≠ '\n')).length))
  | none =>
    backtrackMatch pfx (after.takeWhile jsWhitespace)
      (after.drop (after.takeWhile jsWhitespace).length)

/-- One attempt of the global segment regex `/REVIEW:\s*([^\n]+)/gi` at the
current position: on success, the matched segment and the remainder of the
input after it. -/
def tryMatchReview (s : Str) : Option (Str × Str) :=
  match ciStrip reviewPat s with
  | none => none
  | some after => tryMatchAfter (s.take 7) after

/-- All segments the global regex finds, scanning left to right and
resuming after each match; the fuel (the input length bounds the number of
steps) keeps the recursion structural. -/
def scanReviewsAux : Nat → Str → List Str
  | 0, _ => []
  | _ + 1, [] => []
  | fuel + 1, c :: cs =>
    match tryMatchReview (c :: cs) with
    | some (m, rest) => m :: scanReviewsAux fuel rest
    | none => scanReviewsAux fuel cs

/-- `response.match(/REVIEW:\s*([^\n]+)/gi) || []`. -/
def scanReviews (s : Str) : List Str := scanReviewsAux s.length s

/-- The four alternatives of `(correct|wrong|partial|skip)`; `partialO`
models the source's `'partial'`. -/
inductive ReviewVerdict where
  | correct
  | wrong
  | partialO
  | skip
  deriving DecidableEq

/-- Match the outcome alternation case-insensitively at the head (the
alternatives start with distinct letters, so order is immaterial). -/
def stripVerdict (s : Str) : Option (ReviewVerdict × Str) :=
  match ciStrip "correct".toList s with
  | some r => some (ReviewVerdict.correct, r)
  | none =>
    match ciStrip "wrong".toList s with
    | some r => some (ReviewVerdict.wrong, r)
    | none =>
      match ciStrip "partial".toList s with
      | some r => some (ReviewVerdict.partialO, r)
      | none =>
        match ciStrip "skip".toList s with
        | some r => some (ReviewVerdict.skip, r)
        | none => none

/-- The per-segment regex, anchored at the current position: `REVIEW:`,
greedy `\s*`, optional `[`, a nonempty run free of `]` and `|` (the id),
optional `]`, `\s*|\s*`, the outcome keyword, `\s*|`, then `\s*(.+)` (the
notes). -/
def parseReviewCore (s : Str) : Option (Str × ReviewVerdict × Str) :=
  match ciStrip reviewPat s with
  | none => none
  | some r1 =>
    let r2 := r1.dropWhile jsWhitespace
    let r3 := match r2 with
      | '[' :: t => t
      | _ => r2
    let idRaw := r3.takeWhile fun c => !(c = ']' || c = '|')
    if idRaw.isEmpty then none
    else
      let r4 := r3.drop idRaw.length
      let r5 := match r4 with
        | ']' :: t => t
        | _ => r4
      match r5.dropWhile jsWhitespace with
      | '|' :: r7 =>
        match stripVerdict (r7.dropWhile jsWhitespace) with
        | some (v, r9) =>
          match r9.dropWhile jsWhitespace with
          | '|' :: r11 => (wsCapture r11).map fun notes => (idRaw, v, notes)
          | _ => none
        | none => none
      | _ => none

/-- The per-segment regex with its leftmost-match search (a segment could
hold a second `REVIEW:` after a malformed head). -/
def parseReviewLine : Str → Option (Str × ReviewVerdict × Str)
  | [] => none
  | c :: cs =>
    match parseReviewCore (c :: cs) with
    | some r => some r
    | none => parseReviewLine cs

/-- The update a parsed tuple contributes: `skip` verdicts are dropped,
ids and notes are trimmed, the outcome is already case-normalised. -/
def updateOfParse (t : Str × ReviewVerdict × Str) : Option OutcomeUpdate :=
  match t.2.1 with
  | .skip => none
  | .correct => some ⟨jsTrim t.1, Outcome.correct, jsTrim t.2.2⟩
  | .wrong => some ⟨jsTrim t.1, Outcome.wrong, jsTrim t.2.2⟩
  | .partialO => some ⟨jsTrim t.1, Outcome.partialO, jsTrim t.2.2⟩

/-- The parsed review updates of a response: parse each segment, drop
non-matching segments and `skip` verdicts. -/
def extractReviewUpdates (response : Str) : List OutcomeUpdate :=
  ((scanReviews response).filterMap parseReviewLine).filterMap
    updateOfParse

/-- `response.match(/LESSON:\s*(.+)/i)`: the first position where the
lesson regex matches, and its capture. -/
def extractLesson : Str → Option Str
  | [] => none
  | c :: cs =>
    match ciStrip lessonPat (c :: cs) with
    | some after =>
      match wsCapture after with
      | some cap => some cap
      | none => extractLesson cs
    | none => extractLesson cs

/-- Does the review keyword occur (case-insensitively) anywhere in the
string? -/
def hasReviewKey : Str → Bool
  | [] => false
  | c :: cs => (ciStrip reviewPat (c :: cs)).isSome || hasReviewKey cs

/-- The literal text of each outcome alternative. -/
def outcomeKeyword : ReviewVerdict → Str
  | .correct => "correct".toList
  | .wrong => "wrong".toList
  | .partialO => "partial".toList
  | .skip => "skip".toList

/-- A canonical review line `REVIEW: [id] | outcome | notes`, the format
the nightly prompt demands. -/
def canonicalReviewLine (id : Str) (v : ReviewVerdict) (notes : Str) :
    Str :=
  "REVIEW: [".toList ++
    (id ++ ("] | ".toList ++ (outcomeKeyword v ++
      (" | ".toList ++ notes))))

/-- One line of a line-structured collaborator response: either a
canonical review line or a line that never mentions the review keyword. -/
inductive LineSpec where
  | review (id : Str) (v : ReviewVerdict) (notes : Str)
  | plain (l : Str)

/-- The text of a line. -/
def renderLine : LineSpec → Str
  | .review id v notes => canonicalReviewLine id v notes
  | .plain l => l

/-- Well-formedness of a line: a review line's id is nonempty and free of
the delimiters and newlines, its notes hold a non-whitespace character and
no newline; a plain line is free of the review keyword. -/
def wfLine : LineSpec → Prop
  | .review id _ notes =>
      id ≠ [] ∧ (∀ c ∈ id, c ≠ ']' ∧ c ≠ '|' ∧ c ≠ '\n') ∧
      (∀ c ∈ notes, c ≠ '\n') ∧ notes.dropWhile jsWhitespace ≠ []
  | .plain l => hasReviewKey l = false

/-- The response text of a list of lines, newline-separated. -/
def joinLines : List LineSpec → Str
  | [] => []
  | [l] => renderLine l
  | l :: l' :: ls => renderLine l ++ '\n' :: joinLines (l' :: ls)

/-- The segments the global regex extracts from a line-structured
response: exactly its canonical review lines. -/
def reviewSegs : List LineSpec → List Str
  | [] => []
  | .review id v notes :: ls => canonicalReviewLine id v notes :: reviewSegs ls
  | .plain _ :: ls => reviewSegs ls

/-- The updates the claim predicts: one per non-`skip` review line, in
order, with trimmed id and notes. -/
def expectedUpdates : List LineSpec → List OutcomeUpdate
  | [] => []
  | .review id v notes :: ls =>
    (match v with
      | .correct => [⟨jsTrim id, Outcome.correct, jsTrim notes⟩]
      | .wrong => [⟨jsTrim id, Outcome.wrong, jsTrim notes⟩]
      | .partialO => [⟨jsTrim id, Outcome.partialO, jsTrim notes⟩]
      | .skip => []) ++ expectedUpdates ls
  | .plain _ :: ls => expectedUpdates ls

/-- The `nightlyReview` job's state transition on its success path, given
the collaborator's response: apply the extracted updates (when any), store
the trimmed lesson (when present), and mark the nightly guard. -/
def nightlyReviewApply (now : Int) (response : Str)
    (data : PerformanceData) : PerformanceData :=
  let updates := extractReviewUpdates response
  let d1 := if 0 < updates.length then batchUpdateOutcomes now updates data
    else data
  let d2 := match extractLesson response with
    | some l => addStrategyNote now (jsTrim l) d1
    | none => d1
  markNightlyReview now d2

/-- The claim's three-line example response. -/
def c6Response : Str :=
  ("REVIEW: [abc-1] | correct | good call\n" ++
   "REVIEW: [abc-2] | skip | too early\n" ++
   "LESSON: trust the trend").toList

/-- The first pending recommendation the example reviews. -/
def c6Rec1 : Recommendation :=
  { id := "abc-1".toList
    date := "1970-01-01".toList
    ticker := "AAA".toList
    direction := Direction.bullish
    confidence := 70
    type := "swing".toList
    summary := "call one".toList
    outcome := none
    reviewedAt := none
    reviewNotes := none }

/-- The second pending recommendation the example reviews. -/
def c6Rec2 : Recommendation :=
  { id := "abc-2".toList
    date := "1970-01-01".toList
    ticker := "BBB".toList
    direction := Direction.bearish
    confidence := 60
    type := "swing".toList
    summary := "call two".toList
    outcome := none
    reviewedAt := none
    reviewNotes := none }

/-- The ledger before the example nightly review. -/
def c6Perf : PerformanceData :=
  { recommendations := [c6Rec1, c6Rec2]
    weeklyScores := []
    strategyNotes := []
    lastNightlyReview := []
    lastWeeklyReview := [] }

/-! ## Knowledge-store maintenance (`src/brain-manager.ts`)

The brain directory is modelled as a list of files (name, content, mtime);
a real directory never holds two files of one name, which enters the
theorems as a `Nodup` hypothesis where needed.  `consolidateOldFiles`
returns `none` when the source would throw (an eligible daily file whose
embedded date is invalid makes `weekStart.toISOString()` raise on an
Invalid Date) — the throw happens while grouping, before any write or
delete, so the store is untouched and the caller's `catch` absorbs it. -/

/-- A knowledge artifact: filename, UTF-8 content, modification time. -/
structure BrainFile where
  name : Str
  content : Str
  mtime : Int
  deriving DecidableEq

/-- The brain directory. -/
abbrev BrainStore := List BrainFile

/-- The listing filter of `getBrainFiles`: `f.endsWith('.md')`. -/
def isMdName (n : Str) : Bool := ".md".toList.isSuffixOf n

/-- `getBrainFiles()`: the `.md` files sorted by ascending `mtime`
(`sort((a, b) => a.mtime - b.mtime)`, a stable sort). -/
def getBrainFiles (s : BrainStore) : List BrainFile :=
  (s.filter fun f => isMdName f.name).insertionSort
    fun a b => a.mtime ≤ b.mtime

/-- The daily-category filename prefixes of the consolidation sweep. -/
def dailyPatterns : List Str :=
  ["morning-brief-".toList, "eod-recap-".toList, "scan-".toList]

/-- `dailyPatterns.some(p => file.name.startsWith(p))`. -/
def isDailyName (n : Str) : Bool := dailyPatterns.any fun p => p.isPrefixOf n

/-- The time-and-category filter of the consolidation loop: modified
before `oneWeekAgo = now - 7 days` and bearing a daily prefix. -/
def consolidationEligible (now : Int) (f : BrainFile) : Bool :=
  decide (f.mtime < now - 7 * msPerDay) && isDailyName f.name

/-- The regex `/(\d{4}-\d{2}-\d{2})/` anchored at the current position:
four digits, a hyphen, two digits, a hyphen, two digits. -/
def dateMatchAt : Str → Option (Nat × Nat × Nat)
  | c0 :: c1 :: c2 :: c3 :: '-' :: c4 :: c5 :: '-' :: c6 :: c7 :: _ =>
    if c0.isDigit && c1.isDigit && c2.isDigit && c3.isDigit && c4.isDigit &&
        c5.isDigit && c6.isDigit && c7.isDigit then
      some ((c0.toNat - 48) * 1000 + (c1.toNat - 48) * 100 +
          (c2.toNat - 48) * 10 + (c3.toNat - 48),
        (c4.toNat - 48) * 10 + (c5.toNat - 48),
        (c6.toNat - 48) * 10 + (c7.toNat - 48))
    else none
  | _ => none

/-- The leftmost match of `/(\d{4}-\d{2}-\d{2})/` in a filename. -/
def findDateMatch : Str → Option (Nat × Nat × Nat)
  | [] => none
  | c :: cs =>
    match dateMatchAt (c :: cs) with
    | some d => some d
    | none => findDateMatch cs

/-- `et.getDay()` on a day count, under the UTC server clock: 0 = Sunday,
…, 6 = Saturday (1970-01-01 was a Thursday, day number 4). -/
def jsGetDay (dn : Int) : Int := (dn + 4) % 7

/-- The week key day the source computes from an embedded date:
`weekStart.setDate(weekStart.getDate() - weekStart.getDay() + 1)`. -/
def weekKeyDay (dn : Int) : Int := dn + 1 - jsGetDay dn

/-- Membership of a filename in the store. -/
def existsFile (s : BrainStore) (n : Str) : Bool :=
  s.any fun f => decide (f.name = n)

/-- `writeFileSync`: replace the file of that name, or append a new one;
the modification time becomes the write time. -/
def writeFile (s : BrainStore) (n c : Str) (t : Int) : BrainStore :=
  if existsFile s n then
    s.map fun f => if f.name = n then ⟨n, c, t⟩ else f
  else s ++ [⟨n, c, t⟩]

/-- `unlinkSync`: remove the file of that name. -/
def unlink (s : BrainStore) (n : Str) : BrainStore :=
  s.filter fun f => !decide (f.name = n)

/-- `` `weekly-summary-${weekKey}.md` ``. -/
def summaryName (wk : Str) : Str :=
  "weekly-summary-".toList ++ wk ++ ".md".toList

/-- The consolidated summary document: the header lines and each member's
first 500 characters under a per-member header, joined by blank lines. -/
def summaryContent (wk : Str) (es : List (Str × Str)) : Str :=
  List.intercalate "\n\n".toList
    (("# Weekly Summary — Week of ".toList ++ wk) ::
      ("*Consolidated from ".toList ++ natDigits es.length ++
        " daily files*\n".toList) ::
      es.map fun e => "---\n### ".toList ++ e.1 ++ '\n' :: e.2.take 500)

/-- Insert an entry into its week's group, keeping the object-key
insertion order of `weeklyGroups[weekKey].push(...)`. -/
def groupInsert (k : Str) (e : Str × Str) :
    List (Str × List (Str × Str)) → List (Str × List (Str × Str))
  | [] => [(k, [e])]
  | (k', es) :: gs =>
    if k' = k then (k', es ++ [e]) :: gs else (k', es) :: groupInsert k e gs

/-- The grouping loop of `consolidateOldFiles`: walk the listed files,
keep the eligible daily ones with an embedded date, and group them by
their week key.  An invalid embedded date is the throwing case (`none`).
Reading a listed file succeeds in the pure store, so the `catch` around
`readFileSync` has no failing branch to model. -/
def buildGroups (now : Int) :
    List BrainFile → List (Str × List (Str × Str)) →
    Option (List (Str × List (Str × Str)))
  | [], acc => some acc
  | f :: fs, acc =>
    if consolidationEligible now f then
      match findDateMatch f.name with
      | none => buildGroups now fs acc
      | some (y, m, d) =>
        if validCivil y m d then
          buildGroups now fs (groupInsert
            (isoOfDay (weekKeyDay (daysFromCivil y m d))) (f.name, f.content)
            acc)
        else none
    else buildGroups now fs acc

/-- The deletion loop over one group's members: each successful unlink
counts; a missing file's unlink throws, is caught, and is not counted. -/
def deleteEntries (s : BrainStore) : List (Str × Str) → BrainStore × Nat
  | [] => (s, 0)
  | e :: es =>
    if existsFile s e.1 then
      let r := deleteEntries (unlink s e.1) es
      (r.1, r.2 + 1)
    else deleteEntries s es

/-- The write-and-delete loop of `consolidateOldFiles`: skip groups of
fewer than two members and groups whose summary already exists; otherwise
write the summary (modification time = `now`) and delete the members.
Returns the store and the `consolidated` and `deleted` counts. -/
def processGroups (now : Int) :
    BrainStore → List (Str × List (Str × Str)) → BrainStore × Nat × Nat
  | s, [] => (s, 0, 0)
  | s, (k, es) :: gs =>
    if es.length < 2 then processGroups now s gs
    else if existsFile s (summaryName k) then processGroups now s gs
    else
      let del := deleteEntries
        (writeFile s (summaryName k) (summaryContent k es) now) es
      let r := processGroups now del.1 gs
      (r.1, r.2.1 + 1, del.2 + r.2.2)

/-- `consolidateOldFiles()` at time `now`: group, then consolidate.
`none` is the throwing case (invalid embedded date), which occurs before
any write or delete. -/
def consolidateOldFiles (now : Int) (s : BrainStore) :
    Option (BrainStore × Nat × Nat) :=
  (buildGroups now (getBrainFiles s) []).map fun gs => processGroups now s gs

/-! ## Shared lemmas about the model -/

/-- Length of a `slice(-n)`: the smaller of the list's length and `n`. -/
theorem sliceLast_length (n : Nat) (l : List α) :
    (sliceLast n l).length = min l.length n := by
  simp only [sliceLast, List.length_drop]
  omega

/-- `slice(-n)` of a list no longer than `n` is the list itself. -/
theorem sliceLast_of_le {n : Nat} {l : List α} (h : l.length ≤ n) :
    sliceLast n l = l := by
  simp [sliceLast, Nat.sub_eq_zero_of_le h]

/-- `slice(-n)` keeps the freshly appended last element whenever `1 ≤ n`. -/
theorem getLast?_sliceLast_concat {n : Nat} (hn : 1 ≤ n) (l : List α)
    (x : α) : (sliceLast n (l ++ [x])).getLast? = some x := by
  have hk : (l ++ [x]).length - n ≤ l.length := by
    simp only [List.length_append, List.length_singleton]
    omega
  rw [sliceLast, List.drop_append_of_le_length hk, List.getLast?_concat]

/-- Shifting a time value one day back shifts its UTC day count by one. -/
theorem utcDayOf_sub_msPerDay (now : Int) :
    utcDayOf (now - msPerDay) = utcDayOf now - 1 := by
  have h : now - msPerDay = now + (-1) * msPerDay := by ring
  rw [utcDayOf, utcDayOf, h, Int.add_mul_ediv_right now (-1) (by decide)]
  omega

/-! ## C1: what `getPendingReviews` filters on -/

/-- A pending recommendation dated 1970-01-01 in a one-entry ledger. -/
def pendingRec : Recommendation :=
  { id := "x".toList
    date := "1970-01-01".toList
    ticker := "SPY".toList
    direction := Direction.bullish
    confidence := 60
    type := "analysis".toList
    summary := "s".toList
    outcome := some Outcome.pending
    reviewedAt := none
    reviewNotes := none }

/-- The ledger holding only `pendingRec`. -/
def pendingLedger : PerformanceData :=
  { defaultPerformance with recommendations := [pendingRec] }

/-- C1 is false as stated: at `now` = 1970-01-02T00:00Z (19:00 on
1970-01-01 in `America/New_York`, EST offset 5h), `getPendingReviews`
returns the entry dated 1970-01-01 — the entry's date IS today in the
configured timezone, because the filter compares against the UTC date of
`now - 24h`, not an `America/New_York` date. -/
theorem C1_pending_counterexample :
    getPendingReviews 86400000 pendingLedger = [pendingRec] ∧
    getTodayET 86400000 18000000 = pendingRec.date := by decide

/-- C1 amended: `getPendingReviews` returns exactly the entries whose
outcome is undefined-or-pending and whose date is at most the **UTC**
calendar date of `now` minus one day; at clock times where the UTC date is
ahead of the `America/New_York` date (00:00-05:00 UTC, which contains the
20:00 ET nightly-review trigger), that bound equals the ET *today*, so
same-day-ET entries can be returned. -/
theorem C1_pending_returns_exactly_utc_yesterday (now : Int)
    (data : PerformanceData) (r : Recommendation) :
    r ∈ getPendingReviews now data ↔
      r ∈ data.recommendations ∧ isPendingOutcome r.outcome = true ∧
        strLeB r.date (isoOfDay (utcDayOf now - 1)) = true := by
  rw [getPendingReviews, ← utcDayOf_sub_msPerDay]
  simp only [List.mem_filter]
  tauto

/-! ## C2: `recordRecommendation` length behaviour -/

/-- A sample `record` argument. -/
def sampleNewRec : NewRecommendation :=
  { date := "2024-01-02".toList
    ticker := "AAPL".toList
    direction := Direction.bullish
    confidence := 70
    type := "analysis".toList
    summary := "call".toList }

/-- The ledger after `record`: the last 200 entries of the old ledger with
the new entry appended. -/
theorem recordRecommendation_recs (now : Int) (r : NewRecommendation)
    (d : PerformanceData) :
    (recordRecommendation now r d).recommendations =
      sliceLast 200 (d.recommendations ++ [recordedRec now r]) := by
  show (if 200 < (d.recommendations ++ [recordedRec now r]).length then
      sliceLast 200 (d.recommendations ++ [recordedRec now r])
    else d.recommendations ++ [recordedRec now r]) = _
  by_cases h : 200 < (d.recommendations ++ [recordedRec now r]).length
  · rw [if_pos h]
  · rw [if_neg h, sliceLast_of_le (by omega)]

/-- The ledger length after `record` is `min (old + 1) 200`. -/
theorem recordRecommendation_length (now : Int) (r : NewRecommendation)
    (d : PerformanceData) :
    (recordRecommendation now r d).recommendations.length =
      min (d.recommendations.length + 1) 200 := by
  rw [recordRecommendation_recs, sliceLast_length]
  simp only [List.length_append, List.length_singleton]

/-- A ledger already at the 200-entry cap. -/
def fullLedger : PerformanceData :=
  { defaultPerformance with
    recommendations := List.replicate 200 (recordedRec 0 sampleNewRec) }

/-- C2 is false as stated: on a ledger at the cap, one `record` call does
not increase the length by 1 (the length stays 200: one entry is appended
and the oldest is evicted). -/
theorem C2_record_counterexample :
    ¬(recordRecommendation 0 sampleNewRec fullLedger).recommendations.length
      = fullLedger.recommendations.length + 1 := by
  have h200 : fullLedger.recommendations.length = 200 := by
    rw [show fullLedger.recommendations
        = List.replicate 200 (recordedRec 0 sampleNewRec) from rfl,
      List.length_replicate]
  rw [recordRecommendation_length, h200]
  omega

/-- C2 amended: after `record` the ledger is the last 200 entries of the
old ledger with the new entry appended, so its length is
`min (old + 1) 200` — an increase of exactly 1 below the cap, and an
unchanged length of 200 at the cap, the oldest entries being the ones
dropped. -/
theorem C2_record_appends_and_caps (now : Int) (r : NewRecommendation)
    (d : PerformanceData) :
    (recordRecommendation now r d).recommendations =
      sliceLast 200 (d.recommendations ++ [recordedRec now r]) ∧
    (recordRecommendation now r d).recommendations.length =
      min (d.recommendations.length + 1) 200 :=
  ⟨recordRecommendation_recs now r d, recordRecommendation_length now r d⟩

/-! ## C5: id generation -/

/-- Reading back a base-36 digit below 36 recovers it. -/
theorem b36Val_b36Char : ∀ d : Nat, d < 36 → b36Val (b36Char d) = d := by
  decide

/-- Decoding inverts the fuelled base-36 encoder below its fuel. -/
theorem b36Decode_natToB36Aux :
    ∀ fuel n : Nat, n < fuel → b36Decode (natToB36Aux fuel n) = n := by
  intro fuel
  induction fuel with
  | zero => omega
  | succ f ih =>
    intro n hn
    rw [natToB36Aux]
    by_cases h36 : n < 36
    · rw [if_pos h36]
      simp [b36Decode, b36Val_b36Char n h36]
    · rw [if_neg h36]
      have hdiv : n / 36 < f := by
        have := Nat.div_lt_self (by omega : 0 < n) (by omega : 1 < 36)
        omega
      have hmod : n % 36 < 36 := Nat.mod_lt n (by omega)
      rw [b36Decode, List.foldl_append]
      have hrec := ih (n / 36) hdiv
      rw [b36Decode] at hrec
      simp [hrec, b36Val_b36Char (n % 36) hmod]
      omega

/-- Decoding inverts `toString(36)`. -/
theorem b36Decode_natToB36 (n : Nat) : b36Decode (natToB36 n) = n :=
  b36Decode_natToB36Aux (n + 1) n (by omega)

/-- `toString(36)` is injective on the naturals. -/
theorem natToB36_inj {a b : Nat} (h : natToB36 a = natToB36 b) : a = b := by
  have := congrArg b36Decode h
  rwa [b36Decode_natToB36, b36Decode_natToB36] at this

/-- The ledger after recording the same call twice in one millisecond. -/
def twiceRecorded : PerformanceData :=
  recordRecommendation 1000 sampleNewRec
    (recordRecommendation 1000 sampleNewRec defaultPerformance)

/-- C5 is false as stated: two `record` calls in the same millisecond
(`Date.now()` = 1000 twice) for the same date and ticker generate the same
id, so the ledger holds a duplicated id. -/
theorem C5_id_collision_counterexample :
    twiceRecorded.recommendations.map (fun r => r.id) =
      [mkRecId "2024-01-02".toList "AAPL".toList 1000,
        mkRecId "2024-01-02".toList "AAPL".toList 1000] ∧
    ¬(twiceRecorded.recommendations.map (fun r => r.id)).Nodup := by
  constructor
  · decide
  · decide

/-- C5 amended: for a fixed date and ticker, two generated ids coincide
exactly when the two `Date.now()` readings coincide — ids are unique
across calls with distinct millisecond timestamps, and collide for
same-millisecond calls. -/
theorem C5_id_unique_iff_distinct_millis (date ticker : Str) (t1 t2 : Int)
    (h1 : 0 ≤ t1) (h2 : 0 ≤ t2) :
    mkRecId date ticker t1 = mkRecId date ticker t2 ↔ t1 = t2 := by
  constructor
  · intro h
    rw [mkRecId, mkRecId] at h
    have h' := List.append_cancel_left h
    simp only [List.cons.injEq, true_and, List.append_cancel_left_eq] at h'
    rw [intToB36, intToB36, if_neg (by omega), if_neg (by omega)] at h'
    have := natToB36_inj h'
    omega
  · intro h
    rw [h]

/-- Witness for C5's amended theorem: distinct millisecond stamps give
distinct ids. -/
theorem C5_id_unique_witness :
    ¬(mkRecId "2024-01-02".toList "AAPL".toList 1000 =
      mkRecId "2024-01-02".toList "AAPL".toList 1001) := fun h =>
  absurd ((C5_id_unique_iff_distinct_millis "2024-01-02".toList
    "AAPL".toList 1000 1001 (by decide) (by decide)).mp h) (by decide)

/-! ## C9: `batchUpdateOutcomes` -/

/-- An update whose id misses every entry changes nothing. -/
theorem applyUpdate_of_absent (now : Int) (u : OutcomeUpdate) :
    ∀ recs : List Recommendation, (∀ r ∈ recs, r.id ≠ u.id) →
      applyUpdate now u recs = recs := by
  intro recs
  induction recs with
  | nil => intro _; rfl
  | cons r rs ih =>
    intro h
    rw [applyUpdate, if_neg (h r (by simp))]
    rw [ih fun r' hr' => h r' (by simp [hr'])]

/-- An update whose id first matches at `r` rewrites exactly that entry. -/
theorem applyUpdate_first_match (now : Int) (u : OutcomeUpdate)
    (pre post : List Recommendation) (r : Recommendation)
    (hid : r.id = u.id) (hpre : ∀ r' ∈ pre, r'.id ≠ u.id) :
    applyUpdate now u (pre ++ r :: post) =
      pre ++ { r with
        outcome := some u.outcome
        reviewedAt := some (isoDateTime now)
        reviewNotes := some u.notes } :: post := by
  induction pre with
  | nil => simp [applyUpdate, hid]
  | cons p ps ih =>
    rw [List.cons_append, applyUpdate, if_neg (hpre p (by simp))]
    rw [List.cons_append, ih fun r' hr' => hpre r' (by simp [hr'])]

/-- C9: `batchUpdateOutcomes` with ids absent from the ledger raises no
exception (it is a total function) and leaves the document unchanged; an
update whose id is present overwrites the first entry bearing it — its
outcome and notes are replaced and `reviewedAt` is set to now — and every
other entry is untouched. -/
theorem C9_batch_unknown_noop_present_overwrites :
    (∀ (now : Int) (updates : List OutcomeUpdate) (data : PerformanceData),
      (∀ u ∈ updates, ∀ r ∈ data.recommendations, r.id ≠ u.id) →
      batchUpdateOutcomes now updates data = data) ∧
    (∀ (now : Int) (u : OutcomeUpdate) (data : PerformanceData)
      (pre post : List Recommendation) (r : Recommendation),
      data.recommendations = pre ++ r :: post → r.id = u.id →
      (∀ r' ∈ pre, r'.id ≠ u.id) →
      batchUpdateOutcomes now [u] data = { data with
        recommendations := pre ++ { r with
          outcome := some u.outcome
          reviewedAt := some (isoDateTime now)
          reviewNotes := some u.notes } :: post }) := by
  constructor
  · intro now updates data h
    have hfold : updates.foldl (fun recs u => applyUpdate now u recs)
        data.recommendations = data.recommendations := by
      induction updates with
      | nil => rfl
      | cons u us ih =>
        rw [List.foldl_cons,
          applyUpdate_of_absent now u data.recommendations
            (h u (by simp))]
        exact ih fun u' hu' => h u' (by simp [hu'])
    rw [batchUpdateOutcomes, hfold]
  · intro now u data pre post r hdata hid hpre
    rw [batchUpdateOutcomes]
    simp only [List.foldl_cons, List.foldl_nil]
    rw [hdata, applyUpdate_first_match now u pre post r hid hpre]

/-! ## C10: `addStrategyNote` stores an altered note -/

/-- C10: the stored strategy note is the argument prefixed with the
current UTC date in brackets, and is therefore never the note text
itself. -/
theorem C10_strategy_note_date_prefixed (now : Int) (note : Str)
    (data : PerformanceData) :
    (addStrategyNote now note data).strategyNotes.getLast? =
      some ('[' :: isoOfDay (utcDayOf now) ++ ']' :: ' ' :: note) ∧
    '[' :: isoOfDay (utcDayOf now) ++ ']' :: ' ' :: note ≠ note := by
  constructor
  · show (if 30 < (data.strategyNotes ++
        ['[' :: isoOfDay (utcDayOf now) ++ ']' :: ' ' :: note]).length then
        sliceLast 30 _ else _).getLast? = _
    by_cases h : 30 < (data.strategyNotes ++
        ['[' :: isoOfDay (utcDayOf now) ++ ']' :: ' ' :: note]).length
    · rw [if_pos h, getLast?_sliceLast_concat (by omega)]
    · rw [if_neg h, List.getLast?_concat]
  · intro h
    have := congrArg List.length h
    simp only [List.length_cons, List.length_append] at this
    omega

/-! ## C4: the weekly rollup threshold and accuracy formula -/

/-- `exactAccuracy` is the floor of the rational value plus one half:
what the spec's `round((correct + partial/2) / total * 100)` denotes in
exact arithmetic. -/
theorem exactAccuracy_floor (c p t : Nat) (ht : 0 < t) :
    (exactAccuracy c p t : ℤ) =
      ⌊((c : ℚ) + (p : ℚ) / 2) / (t : ℚ) * 100 + 1 / 2⌋ := by
  have htQ : (t : ℚ) ≠ 0 := Nat.cast_ne_zero.mpr (by omega)
  have h1 : ((c : ℚ) + (p : ℚ) / 2) / (t : ℚ) * 100 + 1 / 2
      = ((((2 * c + p) * 100 + t : ℕ) : ℤ) : ℚ) / ((2 * t : ℕ) : ℚ) := by
    push_cast
    field_simp
    ring
  rw [h1, Rat.floor_intCast_div_natCast, exactAccuracy]
  norm_cast

/-- C4: under the once-a-day guard, a week with fewer than 2 reviewed
calls appends no `WeeklyScore`; a week with at least 2 appends exactly the
score of the week filter; and the score's `accuracy` field is
`Math.round((correct + 0.5*partial) / total * 100)` computed in binary64
(`weeklyAccuracy`) on the score's own counts — which can differ from the
exact rounding of the formula (see the counterexample). -/
theorem C4_weekly_rollup (now etOffset : Int) (b w l : Str)
    (perf : PerformanceData)
    (hguard : perf.lastWeeklyReview ≠ getTodayET now etOffset) :
    ((weeklyEligible now perf).length < 2 →
      (weeklyReviewUpdate now etOffset b w l perf).weeklyScores =
        perf.weeklyScores) ∧
    (2 ≤ (weeklyEligible now perf).length →
      (weeklyReviewUpdate now etOffset b w l perf).weeklyScores.getLast? =
        some (weeklyScoreOf now b w l perf)) ∧
    (weeklyScoreOf now b w l perf).accuracy =
      weeklyAccuracy (weeklyScoreOf now b w l perf).correct
        (weeklyScoreOf now b w l perf).partialO
        (weeklyScoreOf now b w l perf).totalCalls := by
  refine ⟨fun hlen => ?_, fun hlen => ?_, rfl⟩
  · rw [weeklyReviewUpdate, if_neg hguard, if_pos hlen]
    rfl
  · rw [weeklyReviewUpdate, if_neg hguard, if_neg (by omega)]
    show (if 52 < (perf.weeklyScores ++
        [weeklyScoreOf now b w l perf]).length then
        sliceLast 52 (perf.weeklyScores ++ [weeklyScoreOf now b w l perf])
      else perf.weeklyScores ++ [weeklyScoreOf now b w l perf]).getLast? = _
    by_cases h : 52 < (perf.weeklyScores ++
        [weeklyScoreOf now b w l perf]).length
    · rw [if_pos h, getLast?_sliceLast_concat (by omega)]
    · rw [if_neg h, List.getLast?_concat]

/-- A reviewed correct call dated 2024-01-10. -/
def c8RecA : Recommendation :=
  { id := "a".toList
    date := "2024-01-10".toList
    ticker := "SPY".toList
    direction := Direction.bullish
    confidence := 60
    type := "analysis".toList
    summary := "s".toList
    outcome := some Outcome.correct
    reviewedAt := none
    reviewNotes := none }

/-- A reviewed wrong call dated 2024-01-11. -/
def c8RecB : Recommendation :=
  { id := "b".toList
    date := "2024-01-11".toList
    ticker := "QQQ".toList
    direction := Direction.bearish
    confidence := 55
    type := "analysis".toList
    summary := "t".toList
    outcome := some Outcome.wrong
    reviewedAt := none
    reviewNotes := none }

/-- A ledger with exactly two reviewed calls in the trailing week. -/
def c8Perf : PerformanceData :=
  { defaultPerformance with recommendations := [c8RecA, c8RecB] }

/-- A reviewed partial call dated 2024-01-10. -/
def c4RecP : Recommendation :=
  { c8RecA with id := "p".toList, outcome := some Outcome.partialO }

/-- A ledger whose trailing week holds 3 correct and 17 partial reviewed
calls. -/
def c4Perf : PerformanceData :=
  { defaultPerformance with
    recommendations :=
      List.replicate 3 c8RecA ++ List.replicate 17 c4RecP }

/-- C4's accuracy formula fails as exact rounding: the source computes in
binary64, and with 3 correct and 17 partial calls of 20 the float value
`(3 + 17*0.5)/20*100` is `57.49999999999999`, just below `57.5`, so the
rollup records 57 where exact round-half-up of the formula gives 58. -/
theorem C4_accuracy_float_counterexample :
    ((weeklyReviewUpdate 1705109400000 18000000 "b".toList "w".toList
        "l".toList c4Perf).weeklyScores.map fun sc => sc.accuracy)
      = [57] ∧
    weeklyAccuracy 3 17 20 = 57 ∧
    exactAccuracy 3 17 20 = 58 := by decide

/-- Witness for C4: with exactly 2 reviewed calls this week (1 correct,
1 wrong) the rollup appends one score, and its accuracy is 50. -/
theorem C4_weekly_rollup_witness :
    (weeklyReviewUpdate 1705109400000 18000000 "b".toList "w".toList
        "l".toList c8Perf).weeklyScores.getLast? =
      some (weeklyScoreOf 1705109400000 "b".toList "w".toList "l".toList
        c8Perf) ∧
    (weeklyScoreOf 1705109400000 "b".toList "w".toList "l".toList
        c8Perf).accuracy = 50 :=
  ⟨(C4_weekly_rollup 1705109400000 18000000 "b".toList "w".toList
      "l".toList c8Perf (by decide)).2.1 (by decide), by decide⟩

/-! ## C8: `weekOf` is not a Monday date -/

/-- C8 fails on the code: at `Date.now()` = 1705109400000 — Friday
2024-01-12, 20:30 in `America/New_York` (EST offset 5h), inside the
scheduled weekly-review window — the rollup over a qualifying ledger
records `weekOf` = 2024-01-06, the UTC date of `now - 7 days`, whose
weekday is Saturday (`getDay()` = 6), not Monday (1).  The interface
comment in `performance.ts` (`weekOf: string; // Monday date`) says
Monday. -/
theorem C8_weekOf_saturday_not_monday :
    ((weeklyReviewUpdate 1705109400000 18000000 "b".toList "w".toList
        "l".toList c8Perf).weeklyScores.map fun sc => sc.weekOf) =
      ["2024-01-06".toList] ∧
    getTodayET 1705109400000 18000000 = "2024-01-12".toList ∧
    jsGetDay (daysFromCivil 2024 1 12) = 5 ∧
    jsGetDay (daysFromCivil 2024 1 6) = 6 ∧
    ¬jsGetDay (daysFromCivil 2024 1 6) = 1 := by decide

/-! ## C3: the consolidation week key -/

/-- The spec's week key: the Monday on or before a day (Monday-indexed
weekday of day `dn` is `(dn + 3) % 7`; 1970-01-01 was a Thursday). -/
def mondayOnOrBefore (dn : Int) : Int := dn - (dn + 3) % 7

/-- C3 is false as stated: a Sunday-dated daily artifact
(`scan-2024-01-07.md`, 2024-01-07 is a Sunday) older than 7 days is
grouped under week key 2024-01-08 — the *following* Monday — while the
Monday on or before the embedded date is 2024-01-01. -/
theorem C3_sunday_counterexample :
    buildGroups (19800 * 86400000)
      (getBrainFiles [⟨"scan-2024-01-07.md".toList, "c".toList, 0⟩]) [] =
      some [("2024-01-08".toList,
        [("scan-2024-01-07.md".toList, "c".toList)])] ∧
    mondayOnOrBefore (daysFromCivil 2024 1 7) = daysFromCivil 2024 1 1 ∧
    isoOfDay (daysFromCivil 2024 1 1) = "2024-01-01".toList ∧
    ¬("2024-01-08".toList = "2024-01-01".toList : Prop) := by decide

/-- C3 amended: the week key of an embedded date is
`date + 1 - getDay(date)`, which is the Monday on or before the date for
Monday-through-Saturday dates but the *following* Monday for Sunday dates;
for the concrete scenario, the artifacts dated 2024-01-02 and 2024-01-03
(both older than 7 days) are grouped under week key 2024-01-01, one
summary artifact is written, and both originals are deleted. -/
theorem C3_week_key_and_concrete_consolidation :
    (∀ dn : Int, jsGetDay dn ≠ 0 → weekKeyDay dn = mondayOnOrBefore dn) ∧
    (∀ dn : Int, jsGetDay dn = 0 →
      weekKeyDay dn = mondayOnOrBefore dn + 7) ∧
    consolidateOldFiles (19800 * 86400000)
      [⟨"morning-brief-2024-01-02.md".toList, "alpha".toList, 0⟩,
       ⟨"eod-recap-2024-01-03.md".toList, "beta".toList, 1⟩] =
      some ([⟨"weekly-summary-2024-01-01.md".toList,
        summaryContent "2024-01-01".toList
          [("morning-brief-2024-01-02.md".toList, "alpha".toList),
           ("eod-recap-2024-01-03.md".toList, "beta".toList)],
        19800 * 86400000⟩], 1, 2) := by
  refine ⟨fun dn h => ?_, fun dn h => ?_, by decide⟩
  · rw [weekKeyDay, mondayOnOrBefore]
    rw [jsGetDay] at h ⊢
    omega
  · rw [weekKeyDay, mondayOnOrBefore]
    rw [jsGetDay] at h ⊢
    omega

/-! ## C7: consolidation is idempotent

The development below characterises one consolidation run well enough to
show that a second run over its output store finds every week group either
smaller than 2 or already summarised, and therefore writes and deletes
nothing. -/

/-- The week-group association list built by the grouping loop. -/
abbrev Groups := List (Str × List (Str × Str))

/-- The keys of a group list, in insertion order. -/
def keysOf (gs : Groups) : List Str := gs.map Prod.fst

/-- The entries stored under a key (those of its first group; the loop
keeps keys unique). -/
def entriesOf (k : Str) (gs : Groups) : List (Str × Str) :=
  ((gs.find? fun g => decide (g.1 = k)).map Prod.snd).getD []

/-- The week key the grouping loop assigns to a file, `none` when the
name has no date match or the embedded date is invalid. -/
def fileWeekKey (f : BrainFile) : Option Str :=
  match findDateMatch f.name with
  | some (y, m, d) =>
    if validCivil y m d then
      some (isoOfDay (weekKeyDay (daysFromCivil y m d)))
    else none
  | none => none

/-- Membership of a store file in the week group of `k`: listed (`.md`),
old-and-daily, and keyed to `k`. -/
def predK (now : Int) (k : Str) (f : BrainFile) : Bool :=
  isMdName f.name && consolidationEligible now f &&
    decide (fileWeekKey f = some k)

/-- How many files of the store fall in the week group of `k`. -/
def cntK (now : Int) (k : Str) (s : BrainStore) : Nat :=
  (s.filter (predK now k)).length

theorem entriesOf_of_not_mem_keys {k : Str} :
    ∀ {gs : Groups}, k ∉ keysOf gs → entriesOf k gs = [] := by
  intro gs
  induction gs with
  | nil => intro _; rfl
  | cons g gs ih =>
    intro h
    have h1 : g.1 ≠ k := fun he => h (by simp [keysOf, he])
    have h2 : k ∉ keysOf gs := fun he => h (by simp [keysOf] at he ⊢; tauto)
    rw [entriesOf, List.find?_cons_of_neg _ (by simpa using h1)]
    exact ih h2

theorem entriesOf_mem_of_nodup {k : Str} {es : List (Str × Str)} :
    ∀ {gs : Groups}, (keysOf gs).Nodup → (k, es) ∈ gs →
      entriesOf k gs = es := by
  intro gs
  induction gs with
  | nil => intro _ h; cases h
  | cons g gs ih =>
    intro hnd hmem
    rcases List.mem_cons.mp hmem with heq | htail
    · rw [← heq]
      rw [entriesOf, List.find?_cons_of_pos _ (by simp)]
      rfl
    · have hk : k ∈ keysOf gs := by
        simp only [keysOf, List.mem_map]
        exact ⟨(k, es), htail, rfl⟩
      have hg1 : g.1 ≠ k := by
        intro he
        rw [keysOf, List.map_cons] at hnd
        exact (List.nodup_cons.mp hnd).1 (he ▸ hk)
      rw [entriesOf, List.find?_cons_of_neg _ (by simpa using hg1)]
      exact ih ((List.nodup_cons.mp (by rwa [keysOf, List.map_cons]
        at hnd)).2) htail

theorem keysOf_groupInsert (k : Str) (e : Str × Str) :
    ∀ gs : Groups, keysOf (groupInsert k e gs) =
      if k ∈ keysOf gs then keysOf gs else keysOf gs ++ [k] := by
  intro gs
  induction gs with
  | nil => rfl
  | cons g gs ih =>
    obtain ⟨a, as⟩ := g
    rw [groupInsert]
    by_cases hgk : a = k
    · rw [if_pos hgk, if_pos (by simp [keysOf, hgk])]
      rfl
    · rw [if_neg hgk]
      have hmem : (k ∈ keysOf ((a, as) :: gs)) = (k ∈ keysOf gs) := by
        simp only [keysOf, List.map_cons, List.mem_cons, eq_iff_iff]
        constructor
        · intro hc
          rcases hc with hc | hc
          · exact absurd hc.symm hgk
          · exact hc
        · exact fun hc => Or.inr hc
      by_cases hk : k ∈ keysOf gs
      · rw [if_pos (by rw [hmem]; exact hk)]
        show a :: keysOf (groupInsert k e gs) = _
        rw [ih, if_pos hk]
        rfl
      · rw [if_neg (by rw [hmem]; exact hk)]
        show a :: keysOf (groupInsert k e gs) = _
        rw [ih, if_neg hk]
        rfl

theorem keysOf_groupInsert_nodup {k : Str} {e : Str × Str} {gs : Groups}
    (h : (keysOf gs).Nodup) : (keysOf (groupInsert k e gs)).Nodup := by
  rw [keysOf_groupInsert]
  by_cases hk : k ∈ keysOf gs
  · rwa [if_pos hk]
  · rw [if_neg hk]
    simp [List.nodup_append, h, hk]

theorem entriesOf_groupInsert (k k' : Str) (e : Str × Str) :
    ∀ gs : Groups, entriesOf k (groupInsert k' e gs) =
      if k' = k then entriesOf k gs ++ [e] else entriesOf k gs := by
  intro gs
  induction gs with
  | nil =>
    show entriesOf k [(k', [e])] = _
    by_cases hk : k' = k
    · rw [if_pos hk, entriesOf, List.find?_cons_of_pos _ (by simpa using hk)]
      rfl
    · rw [if_neg hk, entriesOf, List.find?_cons_of_neg _ (by simpa using hk)]
      rfl
  | cons g gs ih =>
    obtain ⟨a, as⟩ := g
    rw [groupInsert]
    by_cases hga : a = k'
    · rw [if_pos hga]
      by_cases hgk : a = k
      · have hk : k' = k := hga ▸ hgk
        rw [if_pos hk, entriesOf,
          List.find?_cons_of_pos _ (by simpa using hgk), entriesOf,
          List.find?_cons_of_pos _ (by simpa using hgk)]
        rfl
      · have hk : k' ≠ k := fun he => hgk (hga.trans he)
        rw [if_neg hk, entriesOf,
          List.find?_cons_of_neg _ (by simpa using hgk), entriesOf,
          List.find?_cons_of_neg _ (by simpa using hgk)]
    · rw [if_neg hga]
      by_cases hgk : a = k
      · have hk : k' ≠ k := fun he => hga (he.symm ▸ hgk)
        rw [if_neg hk, entriesOf,
          List.find?_cons_of_pos _ (by simpa using hgk), entriesOf,
          List.find?_cons_of_pos _ (by simpa using hgk)]
      · have hskip : entriesOf k ((a, as) :: gs) = entriesOf k gs := by
          rw [entriesOf, List.find?_cons_of_neg _ (by simpa using hgk)]
          rfl
        rw [entriesOf, List.find?_cons_of_neg _ (by simpa using hgk),
          ← entriesOf, ih, hskip]

theorem existsFile_iff {s : BrainStore} {n : Str} :
    existsFile s n = true ↔ ∃ f ∈ s, f.name = n := by
  simp [existsFile]

theorem existsFile_eq_false {s : BrainStore} {n : Str} :
    existsFile s n = false ↔ ∀ f ∈ s, f.name ≠ n := by
  rw [← Bool.not_eq_true, not_iff_comm, existsFile_iff]
  push_neg
  simp

theorem writeFile_of_not_exists {s : BrainStore} {n : Str} (c : Str)
    (t : Int) (h : existsFile s n = false) :
    writeFile s n c t = s ++ [⟨n, c, t⟩] := by
  rw [writeFile, if_neg (by rw [h]; exact Bool.false_ne_true)]

/-- The deletion loop removes exactly the files named by the group's
entries (unlinking an absent name is a caught no-op, so the filter form
holds without any hypothesis). -/
theorem deleteEntries_store :
    ∀ (es : List (Str × Str)) (s : BrainStore), (deleteEntries s es).1 =
      s.filter fun f => !decide (f.name ∈ es.map Prod.fst) := by
  intro es
  induction es with
  | nil =>
    intro s
    rw [deleteEntries]
    simp
  | cons e es ih =>
    intro s
    rw [deleteEntries]
    by_cases h : existsFile s e.1 = true
    · rw [if_pos h]
      show (deleteEntries (unlink s e.1) es).1 = _
      rw [ih, unlink, List.filter_filter]
      apply List.filter_congr
      intro f _
      simp only [List.map_cons, List.mem_cons, Bool.decide_or, Bool.not_or]
      rw [Bool.and_comm]
    · rw [if_neg h]
      rw [ih]
      apply List.filter_congr
      intro f hf
      have hne : f.name ≠ e.1 :=
        (existsFile_eq_false.mp (Bool.not_eq_true _ ▸ h)) f hf
      simp [List.mem_cons, hne]

/-- No daily-prefixed name is a weekly-summary name (their first
characters already differ). -/
theorem isDailyName_summaryName (k : Str) :
    isDailyName (summaryName k) = false := by
  have h : summaryName k =
      'w' :: ("eekly-summary-".toList ++ (k ++ ".md".toList)) := rfl
  rw [isDailyName, dailyPatterns, h]
  rw [show "morning-brief-".toList = 'm' :: "orning-brief-".toList from rfl]
  rw [show "eod-recap-".toList = 'e' :: "od-recap-".toList from rfl]
  rw [show "scan-".toList = 's' :: "can-".toList from rfl]
  simp [List.isPrefixOf]

/-- A file in the week group of some key bears a daily-prefixed name. -/
theorem predK_isDailyName {now : Int} {k : Str} {f : BrainFile}
    (h : predK now k f = true) : isDailyName f.name = true := by
  rw [predK, consolidationEligible] at h
  simp only [Bool.and_eq_true] at h
  exact h.1.2.2

/-- A file in the week group of some key is not a summary file. -/
theorem predK_name_ne_summaryName {now : Int} {k k' : Str} {f : BrainFile}
    (h : predK now k f = true) : f.name ≠ summaryName k' := fun he =>
  absurd (he ▸ predK_isDailyName h)
    (by rw [isDailyName_summaryName k']; exact Bool.false_ne_true)

/-- The freshly written summary file (modification time `now`) is not in
any week group: it is not older than a week. -/
theorem predK_summary_file (now : Int) (k k' c : Str) :
    predK now k ⟨summaryName k', c, now⟩ = false := by
  rw [predK, consolidationEligible]
  have h1 : decide (now < now - 7 * msPerDay) = false := by
    rw [decide_eq_false_iff_not, msPerDay]
    omega
  rw [h1]
  simp

/-- Two store files with one name are one file, under a duplicate-free
listing. -/
theorem name_inj_of_nodup {s : BrainStore}
    (hnd : (s.map fun f => f.name).Nodup) {f g : BrainFile}
    (hf : f ∈ s) (hg : g ∈ s) (h : f.name = g.name) : f = g :=
  List.inj_on_of_nodup_map hnd hf hg h

/-- One file cannot sit in two distinct week groups. -/
theorem predK_key_unique {now : Int} {k k' : Str} {f : BrainFile}
    (h : predK now k f = true) (h' : predK now k' f = true) : k = k' := by
  rw [predK] at h h'
  simp only [Bool.and_eq_true, decide_eq_true_eq] at h h'
  have := h.2.symm.trans h'.2
  exact Option.some.inj this

/-- What the grouping loop builds: under each key, the entries of exactly
the eligible files keyed to it, in listing order, appended to whatever the
accumulator already held. -/
theorem buildGroups_char (now : Int) :
    ∀ (files : List BrainFile) (acc gs : Groups),
      buildGroups now files acc = some gs → ∀ k : Str,
      entriesOf k gs = entriesOf k acc ++
        ((files.filter fun f => consolidationEligible now f &&
          decide (fileWeekKey f = some k)).map fun f =>
            (f.name, f.content)) := by
  intro files
  induction files with
  | nil =>
    intro acc gs h k
    rw [buildGroups] at h
    injection h with h
    subst h
    simp
  | cons f fs ih =>
    intro acc gs h k
    rw [buildGroups] at h
    by_cases he : consolidationEligible now f = true
    · rw [if_pos he] at h
      rcases hm : findDateMatch f.name with _ | ⟨y, m, d⟩
      · rw [hm] at h
        have hkey : fileWeekKey f = none := by rw [fileWeekKey, hm]
        rw [ih acc gs h k, List.filter_cons]
        simp [hkey]
      · rw [hm] at h
        have h2 : (if validCivil (y : Int) m d = true then
            buildGroups now fs (groupInsert
              (isoOfDay (weekKeyDay (daysFromCivil (y : Int) m d)))
              (f.name, f.content) acc)
          else none) = some gs := h
        by_cases hv : validCivil (y : Int) m d = true
        · rw [if_pos hv] at h2
          have hkey : fileWeekKey f =
              some (isoOfDay (weekKeyDay (daysFromCivil (y : Int) m d))) := by
            rw [fileWeekKey, hm]
            exact if_pos hv
          rw [ih _ gs h2 k, entriesOf_groupInsert, List.filter_cons]
          by_cases hkk : isoOfDay (weekKeyDay (daysFromCivil (y : Int) m d)) = k
          · rw [if_pos hkk]
            simp [he, hkey, hkk]
          · rw [if_neg hkk]
            simp [hkey, hkk]
        · rw [if_neg hv] at h2
          exact absurd h2 (by simp)
    · rw [if_neg he] at h
      rw [ih acc gs h k, List.filter_cons]
      simp [he]

/-- The grouping loop keeps group keys duplicate-free. -/
theorem buildGroups_keys_nodup (now : Int) :
    ∀ (files : List BrainFile) (acc gs : Groups),
      buildGroups now files acc = some gs → (keysOf acc).Nodup →
      (keysOf gs).Nodup := by
  intro files
  induction files with
  | nil =>
    intro acc gs h hnd
    rw [buildGroups] at h
    injection h with h
    subst h
    exact hnd
  | cons f fs ih =>
    intro acc gs h hnd
    rw [buildGroups] at h
    by_cases he : consolidationEligible now f = true
    · rw [if_pos he] at h
      rcases hm : findDateMatch f.name with _ | ⟨y, m, d⟩
      · rw [hm] at h
        exact ih acc gs h hnd
      · rw [hm] at h
        have h2 : (if validCivil (y : Int) m d = true then
            buildGroups now fs (groupInsert
              (isoOfDay (weekKeyDay (daysFromCivil (y : Int) m d)))
              (f.name, f.content) acc)
          else none) = some gs := h
        by_cases hv : validCivil (y : Int) m d = true
        · rw [if_pos hv] at h2
          exact ih _ gs h2 (keysOf_groupInsert_nodup hnd)
        · rw [if_neg hv] at h2
          exact absurd h2 (by simp)
    · rw [if_neg he] at h
      exact ih acc gs h hnd

/-- A successful grouping pass saw no eligible file with an invalid
embedded date (an invalid one throws, yielding `none`). -/
theorem buildGroups_valid (now : Int) :
    ∀ (files : List BrainFile) (acc gs : Groups),
      buildGroups now files acc = some gs →
      ∀ f ∈ files, consolidationEligible now f = true →
      ∀ y m d, findDateMatch f.name = some (y, m, d) →
      validCivil y m d = true := by
  intro files
  induction files with
  | nil => intro acc gs _ f hf; cases hf
  | cons f0 fs ih =>
    intro acc gs h f hf he y m d hm
    rw [buildGroups] at h
    rcases List.mem_cons.mp hf with rfl | htail
    · rw [if_pos he, hm] at h
      have h2 : (if validCivil (y : Int) m d = true then
          buildGroups now fs (groupInsert
            (isoOfDay (weekKeyDay (daysFromCivil (y : Int) m d)))
            (f.name, f.content) acc)
        else none) = some gs := h
      by_cases hv : validCivil (y : Int) m d = true
      · exact hv
      · rw [if_neg hv] at h2
        exact absurd h2 (by simp)
    · by_cases he0 : consolidationEligible now f0 = true
      · rw [if_pos he0] at h
        rcases hm0 : findDateMatch f0.name with _ | ⟨y0, m0, d0⟩
        · rw [hm0] at h
          exact ih acc gs h f htail he y m d hm
        · rw [hm0] at h
          have h2 : (if validCivil (y0 : Int) m0 d0 = true then
              buildGroups now fs (groupInsert
                (isoOfDay (weekKeyDay (daysFromCivil (y0 : Int) m0 d0)))
                (f0.name, f0.content) acc)
            else none) = some gs := h
          by_cases hv0 : validCivil (y0 : Int) m0 d0 = true
          · rw [if_pos hv0] at h2
            exact ih _ gs h2 f htail he y m d hm
          · rw [if_neg hv0] at h2
            exact absurd h2 (by simp)
      · rw [if_neg he0] at h
        exact ih acc gs h f htail he y m d hm

/-- Grouping succeeds whenever every eligible file's embedded date is
valid. -/
theorem buildGroups_total (now : Int) :
    ∀ (files : List BrainFile),
      (∀ f ∈ files, consolidationEligible now f = true →
        ∀ y m d, findDateMatch f.name = some (y, m, d) →
        validCivil y m d = true) →
      ∀ acc : Groups, ∃ gs, buildGroups now files acc = some gs := by
  intro files
  induction files with
  | nil => intro _ acc; exact ⟨acc, rfl⟩
  | cons f fs ih =>
    intro hval acc
    have hval' : ∀ f' ∈ fs, consolidationEligible now f' = true →
        ∀ y m d, findDateMatch f'.name = some (y, m, d) →
        validCivil y m d = true :=
      fun f' hf' => hval f' (List.mem_cons_of_mem f hf')
    rw [buildGroups]
    by_cases he : consolidationEligible now f = true
    · rw [if_pos he]
      rcases hm : findDateMatch f.name with _ | ⟨y, m, d⟩
      · obtain ⟨gs, hgs⟩ := ih hval' acc
        exact ⟨gs, hgs⟩
      · obtain ⟨gs, hgs⟩ := ih hval' (groupInsert
          (isoOfDay (weekKeyDay (daysFromCivil (y : Int) m d)))
          (f.name, f.content) acc)
        refine ⟨gs, ?_⟩
        show (if validCivil (y : Int) m d = true then
            buildGroups now fs (groupInsert
              (isoOfDay (weekKeyDay (daysFromCivil (y : Int) m d)))
              (f.name, f.content) acc)
          else none) = some gs
        rw [if_pos (hval f (by simp) he y m d hm)]
        exact hgs
    · rw [if_neg he]
      exact ih hval' acc

/-- The listing-side selection of a week group is, up to order, the
store-side selection. -/
theorem listing_filter_perm (now : Int) (k : Str) (s : BrainStore) :
    ((getBrainFiles s).filter fun f =>
      consolidationEligible now f && decide (fileWeekKey f = some k)).Perm
      (s.filter (predK now k)) := by
  have h1 : (getBrainFiles s).Perm (s.filter fun f => isMdName f.name) :=
    List.perm_insertionSort _ _
  refine ((h1.filter _).trans ?_)
  rw [List.filter_filter]
  apply List.Perm.of_eq
  apply List.filter_congr
  intro f _
  rw [predK]
  cases h : isMdName f.name
  · simp
  · simp

/-- Membership in the listing: a store file whose name ends in `.md`. -/
theorem mem_getBrainFiles {s : BrainStore} {f : BrainFile} :
    f ∈ getBrainFiles s ↔ f ∈ s ∧ isMdName f.name = true := by
  rw [getBrainFiles, (List.perm_insertionSort _ _).mem_iff, List.mem_filter]

/-- The group built under a key holds, up to listing order, exactly the
names of the store's files in that week group. -/
theorem group_entries_perm (now : Int) {s : BrainStore} {gs : Groups}
    {k : Str} {es : List (Str × Str)}
    (hbg : buildGroups now (getBrainFiles s) [] = some gs)
    (hnd : (keysOf gs).Nodup) (hmem : (k, es) ∈ gs) :
    (es.map Prod.fst).Perm ((s.filter (predK now k)).map fun f => f.name) := by
  have hchar := buildGroups_char now (getBrainFiles s) [] gs hbg k
  rw [entriesOf_mem_of_nodup hnd hmem] at hchar
  have hes : es.map Prod.fst = ((getBrainFiles s).filter fun f =>
      consolidationEligible now f &&
        decide (fileWeekKey f = some k)).map fun f => f.name := by
    rw [hchar]
    simp [List.map_map]
    rfl
  rw [hes]
  exact (listing_filter_perm now k s).map _

/-- When every group is skipped (fewer than two members, or its summary
already exists), the consolidation loop does nothing. -/
theorem processGroups_all_skip (now : Int) :
    ∀ (gs : Groups) (s : BrainStore),
      (∀ g ∈ gs, g.2.length < 2 ∨ existsFile s (summaryName g.1) = true) →
      processGroups now s gs = (s, 0, 0) := by
  intro gs
  induction gs with
  | nil => intro s _; rfl
  | cons g gs ih =>
    obtain ⟨k, es⟩ := g
    intro s h
    rw [processGroups]
    by_cases hlen : es.length < 2
    · rw [if_pos hlen]
      exact ih s fun g hg => h g (by simp [hg])
    · rcases h (k, es) (by simp) with hl | hsum
      · exact absurd hl hlen
      · rw [if_neg hlen, if_pos hsum]
        exact ih s fun g hg => h g (by simp [hg])

/-- The store after one group is consolidated: the members removed, the
summary file appended. -/
theorem process_step_store (now : Int) (s : BrainStore) (k : Str)
    (es : List (Str × Str)) (hex : existsFile s (summaryName k) = false)
    (hdaily : ∀ n ∈ es.map Prod.fst, n ≠ summaryName k) :
    (deleteEntries (writeFile s (summaryName k) (summaryContent k es) now)
      es).1 =
      (s.filter fun f => !decide (f.name ∈ es.map Prod.fst)) ++
        [(⟨summaryName k, summaryContent k es, now⟩ : BrainFile)] := by
  rw [writeFile_of_not_exists _ _ hex, deleteEntries_store,
    List.filter_append]
  congr 1
  have hnm : (summaryName k ∈ es.map Prod.fst) = False := by
    simp only [eq_iff_iff, iff_false]
    exact fun hmem => hdaily _ hmem rfl
  simp [hnm]

/-- The post-state of the consolidation loop: names stay duplicate-free,
every week still holding two or more eligible files has its summary on
disk, and every file is an original or one of the groups' summaries. -/
theorem processGroups_post (now : Int) :
    ∀ (gs : Groups) (s : BrainStore),
      ((s.map fun f => f.name).Nodup) →
      (∀ g ∈ gs, ((g.2.map Prod.fst).Perm
        ((s.filter (predK now g.1)).map fun f => f.name))) →
      ((keysOf gs).Nodup) →
      (∀ k : Str, k ∉ keysOf gs →
        cntK now k s < 2 ∨ existsFile s (summaryName k) = true) →
      (((processGroups now s gs).1.map fun f => f.name).Nodup ∧
        (∀ k : Str, 2 ≤ cntK now k (processGroups now s gs).1 →
          existsFile (processGroups now s gs).1 (summaryName k) = true) ∧
        (∀ f ∈ (processGroups now s gs).1, f ∈ s ∨
          ∃ g ∈ gs, f = ⟨summaryName g.1, summaryContent g.1 g.2, now⟩)) := by
  intro gs
  induction gs with
  | nil =>
    intro s hnd _ _ hcover
    have hps : (processGroups now s ([] : Groups)).1 = s := rfl
    rw [hps]
    refine ⟨hnd, fun k hk => ?_, fun f hf => Or.inl hf⟩
    rcases hcover k (by simp [keysOf]) with h | h
    · exact absurd hk (by omega)
    · exact h
  | cons g gs ih =>
    obtain ⟨k, es⟩ := g
    intro s hnd hg hkeys hcover
    have hkeys' : (keysOf gs).Nodup := by
      rw [keysOf, List.map_cons] at hkeys
      exact (List.nodup_cons.mp hkeys).2
    have hknotin : k ∉ keysOf gs := by
      rw [keysOf, List.map_cons] at hkeys
      exact (List.nodup_cons.mp hkeys).1
    have hnotin_cons : ∀ k', ¬(k' = k) → k' ∉ keysOf gs →
        k' ∉ keysOf ((k, es) :: gs) := by
      intro k' h1 h2 hmem
      rw [keysOf, List.map_cons] at hmem
      rcases List.mem_cons.mp hmem with h | h
      · exact h1 h
      · exact h2 h
    have hesperm := hg (k, es) (by simp)
    by_cases hlen : es.length < 2
    · have hskip : processGroups now s ((k, es) :: gs) =
          processGroups now s gs := by
        rw [processGroups, if_pos hlen]
      rw [hskip]
      have hcover' : ∀ k', k' ∉ keysOf gs →
          cntK now k' s < 2 ∨ existsFile s (summaryName k') = true := by
        intro k' hk'
        by_cases hkk : k' = k
        · left
          subst hkk
          have hlen2 : (es.map Prod.fst).length =
              ((s.filter (predK now k')).map fun f => f.name).length :=
            hesperm.length_eq
          rw [List.length_map, List.length_map] at hlen2
          rw [cntK, ← hlen2]
          exact hlen
        · exact hcover k' (hnotin_cons k' hkk hk')
      obtain ⟨ih1, ih2, ih3⟩ :=
        ih s hnd (fun g hg' => hg g (by simp [hg'])) hkeys' hcover'
      refine ⟨ih1, ih2, fun f hf => ?_⟩
      rcases ih3 f hf with h | ⟨g, hgmem, hfe⟩
      · exact Or.inl h
      · exact Or.inr ⟨g, by simp [hgmem], hfe⟩
    · cases hex : existsFile s (summaryName k) with
      | true =>
        have hskip : processGroups now s ((k, es) :: gs) =
            processGroups now s gs := by
          rw [processGroups, if_neg hlen, if_pos hex]
        rw [hskip]
        have hcover' : ∀ k', k' ∉ keysOf gs →
            cntK now k' s < 2 ∨ existsFile s (summaryName k') = true := by
          intro k' hk'
          by_cases hkk : k' = k
          · right
            subst hkk
            exact hex
          · exact hcover k' (hnotin_cons k' hkk hk')
        obtain ⟨ih1, ih2, ih3⟩ :=
          ih s hnd (fun g hg' => hg g (by simp [hg'])) hkeys' hcover'
        refine ⟨ih1, ih2, fun f hf => ?_⟩
        rcases ih3 f hf with h | ⟨g, hgmem, hfe⟩
        · exact Or.inl h
        · exact Or.inr ⟨g, by simp [hgmem], hfe⟩
      | false =>
        have hdaily : ∀ n ∈ es.map Prod.fst, ∀ k' : Str,
            n ≠ summaryName k' := by
          intro n hn k'
          obtain ⟨f, hf, hfn⟩ := List.mem_map.mp (hesperm.mem_iff.mp hn)
          exact hfn ▸ predK_name_ne_summaryName (List.mem_filter.mp hf).2
        have hstep := process_step_store now s k es hex
          (fun n hn => hdaily n hn k)
        have hstore : (processGroups now s ((k, es) :: gs)).1 =
            (processGroups now
              ((s.filter fun f => !decide (f.name ∈ es.map Prod.fst)) ++
                [(⟨summaryName k, summaryContent k es, now⟩ : BrainFile)]) gs).1 := by
          rw [processGroups, if_neg hlen,
            if_neg (by rw [hex]; exact Bool.false_ne_true)]
          simp only [hstep]
        have hq_imp : ∀ (k' : Str), k' ≠ k → ∀ f ∈ s,
            predK now k' f = true → f.name ∉ es.map Prod.fst := by
          intro k' hkk f hf hpk hmem
          obtain ⟨g, hgf, hgn⟩ := List.mem_map.mp (hesperm.mem_iff.mp hmem)
          have hgs := List.mem_filter.mp hgf
          have hfg : f = g := name_inj_of_nodup hnd hf hgs.1 hgn.symm
          have hg2 : predK now k f = true := by
            rw [hfg]
            exact hgs.2
          exact hkk (predK_key_unique hpk hg2)
        have hsumfilter : ∀ k' : Str, List.filter (predK now k')
            [(⟨summaryName k, summaryContent k es, now⟩ : BrainFile)] = [] := by
          intro k'
          simp [predK_summary_file]
        have hfilter_eq : ∀ (k' : Str), k' ≠ k →
            ((s.filter fun f => !decide (f.name ∈ es.map Prod.fst)) ++
              [(⟨summaryName k, summaryContent k es, now⟩ : BrainFile)]).filter
              (predK now k') = s.filter (predK now k') := by
          intro k' hkk
          rw [List.filter_append, hsumfilter k', List.append_nil,
            List.filter_filter]
          apply List.filter_congr
          intro f hf
          cases hp : predK now k' f
          · simp
          · have : f.name ∉ es.map Prod.fst := hq_imp k' hkk f hf hp
            simp [this]
        have hcnt0 : ((s.filter fun f =>
            !decide (f.name ∈ es.map Prod.fst)) ++
            [(⟨summaryName k, summaryContent k es, now⟩ : BrainFile)]).filter
            (predK now k) = [] := by
          rw [List.filter_append, hsumfilter k, List.append_nil,
            List.filter_filter, List.filter_eq_nil_iff]
          intro f hf hcontra
          rw [Bool.and_eq_true] at hcontra
          have hmem : f.name ∈ es.map Prod.fst := by
            apply hesperm.mem_iff.mpr
            exact List.mem_map.mpr ⟨f, List.mem_filter.mpr ⟨hf, hcontra.1⟩, rfl⟩
          rw [decide_eq_true hmem] at hcontra
          exact Bool.false_ne_true hcontra.2
        have hmono : ∀ k'' : Str, existsFile s (summaryName k'') = true →
            existsFile ((s.filter fun f =>
              !decide (f.name ∈ es.map Prod.fst)) ++
              [(⟨summaryName k, summaryContent k es, now⟩ : BrainFile)])
              (summaryName k'') = true := by
          intro k'' h
          obtain ⟨f, hf, hfn⟩ := existsFile_iff.mp h
          apply existsFile_iff.mpr
          refine ⟨f, List.mem_append_left _ (List.mem_filter.mpr
            ⟨hf, ?_⟩), hfn⟩
          have : f.name ∉ es.map Prod.fst := fun hmem =>
            hdaily f.name hmem k'' hfn
          simp [this]
        have hnd' : (((s.filter fun f =>
            !decide (f.name ∈ es.map Prod.fst)) ++
            [(⟨summaryName k, summaryContent k es, now⟩ : BrainFile)]).map
            fun f => f.name).Nodup := by
          rw [List.map_append]
          rw [List.nodup_append]
          refine ⟨List.Nodup.sublist (List.Sublist.map _
            (List.filter_sublist s)) hnd, by simp, ?_⟩
          intro a ha hb
          simp only [List.map_cons, List.map_nil, List.mem_singleton] at hb
          obtain ⟨f, hf, hfn⟩ := List.mem_map.mp ha
          have hx : existsFile s (summaryName k) = true :=
            existsFile_iff.mpr ⟨f, (List.mem_filter.mp hf).1, by
              rw [hfn, hb]⟩
          rw [hex] at hx
          exact Bool.false_ne_true hx
        have hg' : ∀ g ∈ gs, ((g.2.map Prod.fst).Perm
            ((((s.filter fun f => !decide (f.name ∈ es.map Prod.fst)) ++
              [(⟨summaryName k, summaryContent k es, now⟩ : BrainFile)]).filter
              (predK now g.1)).map fun f => f.name)) := by
          intro g hg''
          have hne : g.1 ≠ k := fun he =>
            hknotin (he ▸ (List.mem_map.mpr ⟨g, hg'', rfl⟩))
          rw [hfilter_eq g.1 hne]
          exact hg g (by simp [hg''])
        have hcover' : ∀ k', k' ∉ keysOf gs →
            cntK now k' ((s.filter fun f =>
              !decide (f.name ∈ es.map Prod.fst)) ++
              [(⟨summaryName k, summaryContent k es, now⟩ : BrainFile)]) < 2 ∨
            existsFile ((s.filter fun f =>
              !decide (f.name ∈ es.map Prod.fst)) ++
              [(⟨summaryName k, summaryContent k es, now⟩ : BrainFile)])
              (summaryName k') = true := by
          intro k' hk'
          by_cases hkk : k' = k
          · left
            subst hkk
            rw [cntK, hcnt0]
            simp
          · rcases hcover k' (hnotin_cons k' hkk hk') with hlt | hsum
            · left
              rw [cntK, hfilter_eq k' hkk]
              exact hlt
            · exact Or.inr (hmono k' hsum)
        obtain ⟨ih1, ih2, ih3⟩ := ih _ hnd' hg' hkeys' hcover'
        rw [hstore]
        refine ⟨ih1, ih2, fun f hf => ?_⟩
        rcases ih3 f hf with h | ⟨g, hgmem, hfe⟩
        · rcases List.mem_append.mp h with h1 | h1
          · exact Or.inl (List.mem_filter.mp h1).1
          · rw [List.mem_singleton] at h1
            exact Or.inr ⟨(k, es), by simp, h1⟩
        · exact Or.inr ⟨g, by simp [hgmem], hfe⟩

/-- C7: knowledge consolidation is idempotent.  First part: a second run
over the store a successful run produced performs zero writes and zero
deletes and returns the store unchanged (duplicate-free filenames, as on a
real directory).  Second part: a store in which every week group has
fewer than two eligible members — in particular a single old daily
artifact with no same-week sibling — is left untouched. -/
theorem C7_consolidation_idempotent :
    (∀ (now : Int) (s s1 : BrainStore) (c d : Nat),
      ((s.map fun f => f.name).Nodup) →
      consolidateOldFiles now s = some (s1, c, d) →
      consolidateOldFiles now s1 = some (s1, 0, 0)) ∧
    (∀ (now : Int) (s : BrainStore),
      (∀ f ∈ s, consolidationEligible now f = true →
        ∀ y m d, findDateMatch f.name = some (y, m, d) →
        validCivil y m d = true) →
      (∀ k : Str, cntK now k s < 2) →
      consolidateOldFiles now s = some (s, 0, 0)) := by
  constructor
  · intro now s s1 c d hnd h
    rw [consolidateOldFiles] at h
    rcases hbg : buildGroups now (getBrainFiles s) [] with _ | gs
    · rw [hbg] at h
      exact absurd h (by simp)
    · rw [hbg, Option.map_some'] at h
      have hpg : processGroups now s gs = (s1, c, d) := Option.some.inj h
      have hkeysnd := buildGroups_keys_nodup now _ [] gs hbg (by simp [keysOf])
      have hginit : ∀ g ∈ gs, ((g.2.map Prod.fst).Perm
          ((s.filter (predK now g.1)).map fun f => f.name)) := by
        intro g hgmem
        obtain ⟨k0, es0⟩ := g
        exact group_entries_perm now hbg hkeysnd hgmem
      have hcover0 : ∀ k : Str, k ∉ keysOf gs →
          cntK now k s < 2 ∨ existsFile s (summaryName k) = true := by
        intro k hk
        left
        have h1 := buildGroups_char now _ [] gs hbg k
        rw [entriesOf_of_not_mem_keys hk] at h1
        have h2 : ((getBrainFiles s).filter fun f =>
            consolidationEligible now f &&
              decide (fileWeekKey f = some k)) = [] := by
          have h3 := h1.symm
          rw [show entriesOf k ([] : Groups) = [] from rfl,
            List.nil_append] at h3
          exact List.map_eq_nil_iff.mp h3
        have h4 : s.filter (predK now k) = [] :=
          ((listing_filter_perm now k s).symm.trans
            (List.Perm.of_eq h2)).eq_nil
        rw [cntK, h4]
        simp
      obtain ⟨hnd1, hB, hmem⟩ :=
        processGroups_post now gs s hnd hginit hkeysnd hcover0
      rw [hpg] at hnd1 hB hmem
      have hval2 : ∀ f ∈ getBrainFiles s1,
          consolidationEligible now f = true →
          ∀ y m d, findDateMatch f.name = some (y, m, d) →
          validCivil y m d = true := by
        intro f hf he y m d hm
        have hf1 := mem_getBrainFiles.mp hf
        rcases hmem f hf1.1 with hfs | ⟨g, _, hfe⟩
        · exact buildGroups_valid now _ [] gs hbg f
            (mem_getBrainFiles.mpr ⟨hfs, hf1.2⟩) he y m d hm
        · exfalso
          rw [hfe, consolidationEligible] at he
          rw [show (⟨summaryName g.1, summaryContent g.1 g.2, now⟩ :
            BrainFile).name = summaryName g.1 from rfl,
            isDailyName_summaryName] at he
          simp at he
      obtain ⟨gs2, hbg2⟩ := buildGroups_total now _ hval2 []
      have hkeysnd2 := buildGroups_keys_nodup now _ [] gs2 hbg2
        (by simp [keysOf])
      have hskipall : ∀ g ∈ gs2, g.2.length < 2 ∨
          existsFile s1 (summaryName g.1) = true := by
        intro g hgmem
        obtain ⟨k0, es0⟩ := g
        by_cases hl : es0.length < 2
        · exact Or.inl hl
        · right
          apply hB k0
          have hperm := group_entries_perm now hbg2 hkeysnd2 hgmem
          have hle := hperm.length_eq
          rw [List.length_map, List.length_map] at hle
          rw [cntK, ← hle]
          omega
      rw [consolidateOldFiles, hbg2, Option.map_some',
        processGroups_all_skip now gs2 s1 hskipall]
  · intro now s hval hcnt
    obtain ⟨gs, hbg⟩ := buildGroups_total now (getBrainFiles s)
      (fun f hf => hval f (mem_getBrainFiles.mp hf).1) []
    have hkeysnd := buildGroups_keys_nodup now _ [] gs hbg (by simp [keysOf])
    have hskip : ∀ g ∈ gs, g.2.length < 2 ∨
        existsFile s (summaryName g.1) = true := by
      intro g hgmem
      obtain ⟨k0, es0⟩ := g
      left
      show es0.length < 2
      have hperm := group_entries_perm now hbg hkeysnd hgmem
      have hle := hperm.length_eq
      rw [List.length_map, List.length_map] at hle
      have := hcnt k0
      rw [cntK] at this
      omega
    rw [consolidateOldFiles, hbg, Option.map_some',
      processGroups_all_skip now gs s hskip]

/-- Witness for C7: on the two-artifact store of the concrete scenario, a
first consolidation produces one summary, and re-running it on the result
performs zero writes and zero deletes. -/
theorem C7_consolidation_idempotent_witness :
    consolidateOldFiles (19800 * 86400000)
      [⟨"weekly-summary-2024-01-01.md".toList,
        summaryContent "2024-01-01".toList
          [("morning-brief-2024-01-02.md".toList, "alpha".toList),
           ("eod-recap-2024-01-03.md".toList, "beta".toList)],
        19800 * 86400000⟩] =
      some ([⟨"weekly-summary-2024-01-01.md".toList,
        summaryContent "2024-01-01".toList
          [("morning-brief-2024-01-02.md".toList, "alpha".toList),
           ("eod-recap-2024-01-03.md".toList, "beta".toList)],
        19800 * 86400000⟩], 0, 0) :=
  C7_consolidation_idempotent.1 (19800 * 86400000)
    [⟨"morning-brief-2024-01-02.md".toList, "alpha".toList, 0⟩,
     ⟨"eod-recap-2024-01-03.md".toList, "beta".toList, 1⟩] _ 1 2
    (by decide) (by decide)

/-! ## C6: review extraction

The source's extraction is proved against line-structured responses: each
line is either a canonical `REVIEW: [id] | outcome | notes` line or a line
with no `review:` occurrence at all (a `LESSON:` line, prose, a malformed
line without the keyword).  Extraction returns exactly the canonical
tuples, `skip` dropped, in order.  The claim's concrete three-line input
is also settled end to end through `nightlyReviewApply`. -/

theorem takeWhile_all_append {p : α → Bool} :
    ∀ (l₁ : List α) (c0 : α) (l₂ : List α), (∀ c ∈ l₁, p c = true) →
      p c0 = false → (l₁ ++ c0 :: l₂).takeWhile p = l₁ := by
  intro l₁
  induction l₁ with
  | nil =>
    intro c0 l₂ _ hc
    simp [List.takeWhile_cons, hc]
  | cons a l ih =>
    intro c0 l₂ hall hc
    rw [List.cons_append, List.takeWhile_cons, hall a (by simp), if_pos rfl]
    rw [ih c0 l₂ (fun c hcm => hall c (by simp [hcm])) hc]

theorem takeWhile_all {p : α → Bool} :
    ∀ l : List α, (∀ c ∈ l, p c = true) → l.takeWhile p = l := by
  intro l
  induction l with
  | nil => intro _; rfl
  | cons a l ih =>
    intro hall
    rw [List.takeWhile_cons, hall a (by simp), if_pos rfl, ih fun c hcm =>
      hall c (by simp [hcm])]

theorem drop_length_takeWhile {p : α → Bool} :
    ∀ l : List α, l.drop (l.takeWhile p).length = l.dropWhile p := by
  intro l
  induction l with
  | nil => rfl
  | cons a l ih =>
    rw [List.takeWhile_cons, List.dropWhile_cons]
    cases hp : p a
    · simp
    · simp only [if_pos rfl, List.length_cons, List.drop_succ_cons]
      exact ih

theorem dropWhile_head_false {p : α → Bool} :
    ∀ {l : List α} {c : α} {t : List α}, l.dropWhile p = c :: t →
      p c = false := by
  intro l
  induction l with
  | nil => intro c t h; cases h
  | cons a l ih =>
    intro c t h
    rw [List.dropWhile_cons] at h
    cases hp : p a
    · rw [hp] at h
      simp only [Bool.false_eq_true, if_neg] at h
      rw [← (List.cons.inj h).1]
      exact hp
    · rw [hp] at h
      simp only [if_pos rfl] at h
      exact ih h

theorem dropWhile_idem {p : α → Bool} (l : List α) :
    (l.dropWhile p).dropWhile p = l.dropWhile p := by
  rcases hd : l.dropWhile p with _ | ⟨c, t⟩
  · rfl
  · rw [List.dropWhile_cons, dropWhile_head_false hd]
    simp

theorem jsTrim_dropWhile (s : Str) :
    jsTrim (s.dropWhile jsWhitespace) = jsTrim s := by
  rw [jsTrim, jsTrim, dropWhile_idem]

/-- Stepping a case-insensitive literal match over the input:
a successful strip splits the input after `p.length` characters. -/
theorem ciStrip_split {p : Str} :
    ∀ {s r : Str}, ciStrip p s = some r → ∃ t, s = t ++ r ∧
      t.length = p.length := by
  induction p with
  | nil =>
    intro s r h
    rw [ciStrip] at h
    exact ⟨[], by simpa using Option.some.inj h, rfl⟩
  | cons a p ih =>
    intro s r h
    match s with
    | [] => cases h
    | c :: cs =>
      rw [ciStrip] at h
      by_cases hc : ciEq a c = true
      · rw [if_pos hc] at h
        obtain ⟨t, ht1, ht2⟩ := ih h
        exact ⟨c :: t, by simp [ht1], by simp [ht2]⟩
      · rw [if_neg hc] at h
        cases h

/-- A match of the review keyword never crosses a newline boundary, so a
keyword-free prefix followed by a newline still has no match at its
head. -/
theorem ciStrip_review_none_append :
    ∀ {t : Str}, ciStrip reviewPat t = none → ∀ r : Str,
      ciStrip reviewPat (t ++ '\n' :: r) = none := by
  have hnl : ∀ c ∈ reviewPat, ciEq c '\n' = false := by decide
  suffices h : ∀ (p t : Str), (∀ c ∈ p, ciEq c '\n' = false) →
      ciStrip p t = none → ∀ r, ciStrip p (t ++ '\n' :: r) = none by
    intro t ht r
    exact h reviewPat t hnl ht r
  intro p
  induction p with
  | nil => intro t _ ht; rw [ciStrip] at ht; cases ht
  | cons a p ih =>
    intro t hp ht r
    match t with
    | [] =>
      rw [List.nil_append, ciStrip, if_neg (show ¬(ciEq a '\n' = true) by
        rw [hp a (by simp)]
        exact Bool.false_ne_true)]
    | c :: cs =>
      rw [ciStrip] at ht
      rw [List.cons_append, ciStrip]
      by_cases hc : ciEq a c = true
      · rw [if_pos hc] at ht ⊢
        exact ih cs (fun c hcm => hp c (by simp [hcm])) ht r
      · rw [if_neg hc] at ht ⊢

theorem scanReviewsAux_nil : ∀ f : Nat, scanReviewsAux f [] = [] := by
  intro f
  cases f
  · rfl
  · rfl

/-- The backtracking arm of the segment matcher splits its input. -/
theorem backtrackMatch_split {pfx ws rest m r : Str}
    (h : backtrackMatch pfx ws rest = some (m, r)) :
    m ++ r = pfx ++ (ws ++ rest) ∧ pfx.length ≤ m.length := by
  rw [backtrackMatch] at h
  by_cases hk : wsBacktrackIndex ws = 0
  · rw [if_pos hk] at h
    cases h
  · rw [if_neg hk] at h
    have h2 := Option.some.inj h
    injection h2 with hm hr
    subst hm
    subst hr
    constructor
    · rw [List.append_assoc, ← List.append_assoc (ws.take _),
        List.take_append_drop]
    · rw [List.length_append]
      omega

/-- The keyword tail matcher splits its input. -/
theorem tryMatchAfter_split {pfx after m r : Str}
    (h : tryMatchAfter pfx after = some (m, r)) :
    m ++ r = pfx ++ after ∧ pfx.length ≤ m.length := by
  have hws : after.takeWhile jsWhitespace ++
      after.drop (after.takeWhile jsWhitespace).length = after := by
    rw [drop_length_takeWhile]
    exact List.takeWhile_append_dropWhile _ _
  rw [tryMatchAfter] at h
  rcases hh : (after.drop (after.takeWhile jsWhitespace).length).head?
    with _ | c
  · rw [hh] at h
    have h2 : backtrackMatch pfx (after.takeWhile jsWhitespace)
        (after.drop (after.takeWhile jsWhitespace).length) = some (m, r) := h
    obtain ⟨h3, h4⟩ := backtrackMatch_split h2
    rw [hws] at h3
    exact ⟨h3, h4⟩
  · rw [hh] at h
    have h2 : (if c = '\n' then
        backtrackMatch pfx (after.takeWhile jsWhitespace)
          (after.drop (after.takeWhile jsWhitespace).length)
      else
        some (pfx ++ after.takeWhile jsWhitespace ++
          (after.drop (after.takeWhile jsWhitespace).length).takeWhile
            (· ≠ '\n'),
          (after.drop (after.takeWhile jsWhitespace).length).drop
            (((after.drop
              (after.takeWhile jsWhitespace).length).takeWhile
                (· ≠ '\n')).length))) = some (m, r) := h
    by_cases hcn : c = '\n'
    · rw [if_pos hcn] at h2
      obtain ⟨h3, h4⟩ := backtrackMatch_split h2
      rw [hws] at h3
      exact ⟨h3, h4⟩
    · rw [if_neg hcn] at h2
      have h3 := Option.some.inj h2
      injection h3 with hm hr
      subst hm
      subst hr
      constructor
      · have hline : (after.drop
            (after.takeWhile jsWhitespace).length).takeWhile (· ≠ '\n') ++
            (after.drop (after.takeWhile jsWhitespace).length).drop
              (((after.drop
                (after.takeWhile jsWhitespace).length).takeWhile
                  (· ≠ '\n')).length) =
            after.drop (after.takeWhile jsWhitespace).length := by
          rw [drop_length_takeWhile (p := fun x => decide (x ≠ '\n'))]
          exact List.takeWhile_append_dropWhile _ _
        simp only [List.append_assoc]
        rw [hline, hws]
      · rw [List.length_append, List.length_append]
        omega

/-- A successful segment match splits the input and is nonempty. -/
theorem tryMatchReview_split {s m r : Str}
    (h : tryMatchReview s = some (m, r)) : m ++ r = s ∧ 0 < m.length := by
  rw [tryMatchReview] at h
  rcases hc : ciStrip reviewPat s with _ | after
  · rw [hc] at h
    cases h
  · rw [hc] at h
    have h2 : tryMatchAfter (s.take 7) after = some (m, r) := h
    obtain ⟨t, ht1, ht2⟩ := ciStrip_split hc
    have ht7 : t.length = 7 := by rw [ht2]; rfl
    have htake : s.take 7 = t := by
      rw [ht1, List.take_append_eq_append_take, ht7,
        List.take_of_length_le (le_of_eq ht7)]
      simp
    obtain ⟨h3, h4⟩ := tryMatchAfter_split h2
    refine ⟨by rw [h3, htake, ← ht1], ?_⟩
    rw [htake, ht7] at h4
    omega

theorem tryMatchReview_none {s : Str} (h : ciStrip reviewPat s = none) :
    tryMatchReview s = none := by
  unfold tryMatchReview
  rw [h]

/-- The fuel argument of the scanner is irrelevant once it bounds the
input length. -/
theorem scanReviewsAux_bound :
    ∀ (n f g : Nat) (s : Str), s.length ≤ n → s.length ≤ f →
      s.length ≤ g → scanReviewsAux f s = scanReviewsAux g s := by
  intro n
  induction n with
  | zero =>
    intro f g s hn _ _
    have hs : s = [] := List.length_eq_zero.mp (Nat.le_zero.mp hn)
    subst hs
    rw [scanReviewsAux_nil, scanReviewsAux_nil]
  | succ n ih =>
    intro f g s hn hf hg
    match s with
    | [] => rw [scanReviewsAux_nil, scanReviewsAux_nil]
    | c :: cs =>
      obtain ⟨f', rfl⟩ : ∃ f', f = f' + 1 := by
        rcases f with _ | f'
        · simp at hf
        · exact ⟨f', rfl⟩
      obtain ⟨g', rfl⟩ : ∃ g', g = g' + 1 := by
        rcases g with _ | g'
        · simp at hg
        · exact ⟨g', rfl⟩
      show (match tryMatchReview (c :: cs) with
        | some (m, rest) => m :: scanReviewsAux f' rest
        | none => scanReviewsAux f' cs) =
        (match tryMatchReview (c :: cs) with
        | some (m, rest) => m :: scanReviewsAux g' rest
        | none => scanReviewsAux g' cs)
      rcases h : tryMatchReview (c :: cs) with _ | ⟨m, r⟩
      · exact ih f' g' cs (by simp at hn ⊢; omega)
          (by simp at hf ⊢; omega) (by simp at hg ⊢; omega)
      · obtain ⟨hsplit, hm⟩ := tryMatchReview_split h
        have hlen := congrArg List.length hsplit
        rw [List.length_append] at hlen
        exact congrArg (m :: ·) (ih f' g' r
          (by simp at hn hlen ⊢; omega)
          (by simp at hf hlen ⊢; omega)
          (by simp at hg hlen ⊢; omega))

/-- A failed attempt advances the scan by one character. -/
theorem scanReviews_cons_none {c : Char} {cs : Str}
    (h : tryMatchReview (c :: cs) = none) :
    scanReviews (c :: cs) = scanReviews cs := by
  show (match tryMatchReview (c :: cs) with
    | some (m, rest) => m :: scanReviewsAux cs.length rest
    | none => scanReviewsAux cs.length cs) = scanReviews cs
  rw [h]
  rfl

/-- A successful attempt emits its segment and resumes after it. -/
theorem scanReviews_cons_some {c : Char} {cs m r : Str}
    (h : tryMatchReview (c :: cs) = some (m, r)) :
    scanReviews (c :: cs) = m :: scanReviews r := by
  show (match tryMatchReview (c :: cs) with
    | some (m, rest) => m :: scanReviewsAux cs.length rest
    | none => scanReviewsAux cs.length cs) = m :: scanReviews r
  rw [h]
  show m :: scanReviewsAux cs.length r = m :: scanReviewsAux r.length r
  obtain ⟨hsplit, hm⟩ := tryMatchReview_split h
  have hlen := congrArg List.length hsplit
  rw [List.length_append] at hlen
  exact congrArg (m :: ·)
    (scanReviewsAux_bound cs.length cs.length r.length r
      (by simp at hlen ⊢; omega) (by simp at hlen ⊢; omega) le_rfl)

/-- A keyword-free string yields no segments. -/
theorem scanReviews_plain_nil :
    ∀ {l : Str}, hasReviewKey l = false → scanReviews l = [] := by
  intro l
  induction l with
  | nil => intro _; rfl
  | cons c cs ih =>
    intro h
    have h1 : ((ciStrip reviewPat (c :: cs)).isSome || hasReviewKey cs)
        = false := h
    rw [Bool.or_eq_false_iff] at h1
    have hnone : ciStrip reviewPat (c :: cs) = none := by
      rcases hx : ciStrip reviewPat (c :: cs) with _ | a
      · rfl
      · rw [hx] at h1; simp at h1
    rw [scanReviews_cons_none (tryMatchReview_none hnone), ih h1.2]

/-- The scan passes over a keyword-free line and its newline. -/
theorem scanReviews_plain_newline :
    ∀ {l : Str}, hasReviewKey l = false → ∀ rest : Str,
      scanReviews (l ++ '\n' :: rest) = scanReviews rest := by
  intro l
  induction l with
  | nil =>
    intro _ rest
    have hnone : ciStrip reviewPat ('\n' :: rest) = none := rfl
    rw [List.nil_append,
      scanReviews_cons_none (tryMatchReview_none hnone)]
  | cons c cs ih =>
    intro h rest
    have h1 : ((ciStrip reviewPat (c :: cs)).isSome || hasReviewKey cs)
        = false := h
    rw [Bool.or_eq_false_iff] at h1
    have hnone : ciStrip reviewPat (c :: cs) = none := by
      rcases hx : ciStrip reviewPat (c :: cs) with _ | a
      · rfl
      · rw [hx] at h1; simp at h1
    have hnone2 := ciStrip_review_none_append hnone rest
    rw [List.cons_append]
    rw [List.cons_append] at hnone2
    rw [scanReviews_cons_none (tryMatchReview_none hnone2), ih h1.2 rest]

/-- Computation of one attempt at a `REVIEW: [` head: the direct
(non-backtracking) arm of the segment matcher applies. -/
theorem tryMatchReview_bracket (Y : Str) :
    tryMatchReview ("REVIEW: [".toList ++ Y)
      = some ("REVIEW:".toList ++ [' '] ++
          ('[' :: Y).takeWhile (· ≠ '\n'),
        ('[' :: Y).drop
          ((('[' :: Y).takeWhile (· ≠ '\n')).length)) := rfl

/-- At the head of a canonical review line, the segment matcher returns
exactly the line, leaving a following newline (or nothing) behind. -/
theorem tryMatchReview_canonical (id : Str) (v : ReviewVerdict)
    (notes tail : Str)
    (hid : ∀ c ∈ id, c ≠ '\n')
    (hnotes : ∀ c ∈ notes, c ≠ '\n')
    (htail : tail = [] ∨ ∃ r, tail = '\n' :: r) :
    tryMatchReview (canonicalReviewLine id v notes ++ tail)
      = some (canonicalReviewLine id v notes, tail) := by
  have hkw : ∀ c ∈ outcomeKeyword v, c ≠ '\n' := by
    cases v <;> decide
  have hlit1 : ∀ c ∈ "] | ".toList, c ≠ '\n' := by decide
  have hlit2 : ∀ c ∈ " | ".toList, c ≠ '\n' := by decide
  have hBnl : ∀ c ∈ (id ++ ("] | ".toList ++ (outcomeKeyword v ++
      (" | ".toList ++ notes)))), (fun c => decide (c ≠ '\n')) c = true := by
    intro c hc
    rcases List.mem_append.mp hc with h | h
    · exact decide_eq_true (hid c h)
    rcases List.mem_append.mp h with h | h
    · exact decide_eq_true (hlit1 c h)
    rcases List.mem_append.mp h with h | h
    · exact decide_eq_true (hkw c h)
    rcases List.mem_append.mp h with h | h
    · exact decide_eq_true (hlit2 c h)
    · exact decide_eq_true (hnotes c h)
  have hassoc : canonicalReviewLine id v notes ++ tail
      = "REVIEW: [".toList ++ ((id ++ ("] | ".toList ++
          (outcomeKeyword v ++ (" | ".toList ++ notes)))) ++ tail) := by
    rw [canonicalReviewLine, List.append_assoc]
  rw [hassoc, tryMatchReview_bracket, canonicalReviewLine]
  generalize hB : id ++ ("] | ".toList ++ (outcomeKeyword v ++
    (" | ".toList ++ notes))) = B
  rw [hB] at hBnl
  have htake : ('[' :: (B ++ tail)).takeWhile (· ≠ '\n') = '[' :: B := by
    rw [List.takeWhile_cons, if_pos (by decide)]
    rcases htail with rfl | ⟨r, rfl⟩
    · rw [List.append_nil, takeWhile_all B hBnl]
    · rw [takeWhile_all_append B '\n' r hBnl (by decide)]
  rw [htake]
  have hdrop : ('[' :: (B ++ tail)).drop (('[' :: B).length) = tail := by
    show ('[' :: (B ++ tail)).drop (B.length + 1) = tail
    rw [List.drop_succ_cons]
    exact List.drop_left B tail
  rw [hdrop]
  rfl

/-- The notes capture `\s*(.+)` applied after the second `|` of a
canonical line: the notes with leading whitespace stripped. -/
theorem wsCapture_space (notes : Str)
    (hnl : ∀ c ∈ notes, c ≠ '\n')
    (hnw : notes.dropWhile jsWhitespace ≠ []) :
    wsCapture (' ' :: notes) = some (notes.dropWhile jsWhitespace) := by
  rcases hD : notes.dropWhile jsWhitespace with _ | ⟨d, D⟩
  · exact absurd hD hnw
  have hdmem : d ∈ notes :=
    (List.dropWhile_sublist _).subset (hD ▸ List.mem_cons_self d D)
  have hdn : d ≠ '\n' := hnl d hdmem
  unfold wsCapture
  have h1 : (' ' :: notes).takeWhile jsWhitespace
      = ' ' :: notes.takeWhile jsWhitespace := by
    rw [List.takeWhile_cons, if_pos (by decide)]
  rw [h1]
  have h2 : (' ' :: notes).drop
      ((' ' :: notes.takeWhile jsWhitespace).length) = d :: D := by
    show (' ' :: notes).drop ((notes.takeWhile jsWhitespace).length + 1)
      = d :: D
    rw [List.drop_succ_cons, drop_length_takeWhile, hD]
  simp only [h2, List.head?_cons]
  rw [if_neg hdn]
  have hall : ∀ c ∈ d :: D, (fun c => decide (c ≠ '\n')) c = true := by
    intro c hc
    exact decide_eq_true (hnl c ((List.dropWhile_sublist _).subset
      (hD ▸ hc)))
  rw [takeWhile_all (d :: D) hall]

/-- The per-segment regex parses a canonical review line into its id,
verdict, and whitespace-stripped notes. -/
theorem parseReviewCore_canonical (id : Str) (v : ReviewVerdict)
    (notes : Str)
    (hidne : id ≠ [])
    (hid : ∀ c ∈ id, c ≠ ']' ∧ c ≠ '|')
    (hnl : ∀ c ∈ notes, c ≠ '\n')
    (hnw : notes.dropWhile jsWhitespace ≠ []) :
    parseReviewCore (canonicalReviewLine id v notes)
      = some (id, v, notes.dropWhile jsWhitespace) := by
  have hpid : ∀ c ∈ id,
      (fun c => !(decide (c = ']') || decide (c = '|'))) c = true := by
    intro c hc
    simp [(hid c hc).1, (hid c hc).2]
  have hempty : id.isEmpty = false := by
    rcases id with _ | ⟨a, t⟩
    · exact absurd rfl hidne
    · rfl
  have hidtake : (id ++ (']' :: (' ' :: ('|' :: (' ' ::
      (outcomeKeyword v ++ (' ' :: ('|' :: (' ' :: notes))))))))).takeWhile
        (fun c => !(c = ']' || c = '|')) = id :=
    takeWhile_all_append id ']' _ hpid (by decide)
  have e1 : (' ' :: ('[' :: (id ++ (']' :: (' ' :: ('|' :: (' ' ::
      (outcomeKeyword v ++ (' ' :: ('|' :: (' ' ::
        notes))))))))))).dropWhile jsWhitespace
      = '[' :: (id ++ (']' :: (' ' :: ('|' :: (' ' ::
        (outcomeKeyword v ++ (' ' :: ('|' :: (' ' :: notes))))))))) := rfl
  have e2 : (' ' :: ('|' :: (' ' :: (outcomeKeyword v ++ (' ' :: ('|' ::
      (' ' :: notes))))))).dropWhile jsWhitespace
      = '|' :: (' ' :: (outcomeKeyword v ++ (' ' :: ('|' ::
        (' ' :: notes))))) := rfl
  have e3 : (' ' :: (outcomeKeyword v ++ (' ' :: ('|' ::
      (' ' :: notes))))).dropWhile jsWhitespace
      = outcomeKeyword v ++ (' ' :: ('|' :: (' ' :: notes))) := by
    cases v <;> rfl
  have hstripv : stripVerdict (outcomeKeyword v ++ (' ' :: ('|' ::
      (' ' :: notes)))) = some (v, ' ' :: ('|' :: (' ' :: notes))) := by
    cases v <;> rfl
  have e4 : (' ' :: ('|' :: (' ' :: notes))).dropWhile jsWhitespace
      = '|' :: (' ' :: notes) := rfl
  unfold parseReviewCore canonicalReviewLine
  rw [show ciStrip reviewPat ("REVIEW: [".toList ++ (id ++
      ("] | ".toList ++ (outcomeKeyword v ++ (" | ".toList ++ notes)))))
    = some (' ' :: ('[' :: (id ++ (']' :: (' ' :: ('|' :: (' ' ::
      (outcomeKeyword v ++ (' ' :: ('|' :: (' ' :: notes))))))))))) from
    rfl]
  simp only [e1, hidtake, hempty, List.drop_left, e2, e3, hstripv, e4,
    wsCapture_space notes hnl hnw, Option.map_some', Bool.false_eq_true,
    if_false]

/-- Leftmost-search wrapper: a parse that already succeeds at the head is
the result. -/
theorem parseReviewLine_of_core {c : Char} {cs : Str}
    {r : Str × ReviewVerdict × Str}
    (h : parseReviewCore (c :: cs) = some r) :
    parseReviewLine (c :: cs) = some r := by
  show (match parseReviewCore (c :: cs) with
    | some r => some r
    | none => parseReviewLine cs) = some r
  rw [h]

/-- A successful attempt at any position emits its segment (nonempty-input
form of `scanReviews_cons_some`). -/
theorem scanReviews_some {s m r : Str}
    (h : tryMatchReview s = some (m, r)) :
    scanReviews s = m :: scanReviews r := by
  rcases s with _ | ⟨c, cs⟩
  · cases h
  · exact scanReviews_cons_some h

/-- The scan steps over a leading newline. -/
theorem scanReviews_newline (rest : Str) :
    scanReviews ('\n' :: rest) = scanReviews rest :=
  scanReviews_cons_none (tryMatchReview_none rfl)

/-- The scan of a well-formed line-structured response returns exactly its
canonical review lines, in order. -/
theorem scanReviews_joinLines :
    ∀ ls : List LineSpec, (∀ l ∈ ls, wfLine l) →
      scanReviews (joinLines ls) = reviewSegs ls := by
  intro ls
  induction ls with
  | nil => intro _; rfl
  | cons l ls ih =>
    intro hwf
    rcases ls with _ | ⟨l', ls'⟩
    · rcases l with ⟨id, v, notes⟩ | ⟨p⟩
      · obtain ⟨h1, h2, h3, h4⟩ := hwf _ (List.mem_cons_self _ _)
        have hm := tryMatchReview_canonical id v notes []
          (fun c hc => (h2 c hc).2.2) h3 (Or.inl rfl)
        rw [List.append_nil] at hm
        show scanReviews (canonicalReviewLine id v notes)
          = [canonicalReviewLine id v notes]
        rw [scanReviews_some hm]
        rfl
      · exact scanReviews_plain_nil (hwf _ (List.mem_cons_self _ _))
    · rcases l with ⟨id, v, notes⟩ | ⟨p⟩
      · obtain ⟨h1, h2, h3, h4⟩ := hwf _ (List.mem_cons_self _ _)
        have hm := tryMatchReview_canonical id v notes
          ('\n' :: joinLines (l' :: ls'))
          (fun c hc => (h2 c hc).2.2) h3 (Or.inr ⟨_, rfl⟩)
        show scanReviews (canonicalReviewLine id v notes ++
            '\n' :: joinLines (l' :: ls'))
          = canonicalReviewLine id v notes :: reviewSegs (l' :: ls')
        rw [scanReviews_some hm, scanReviews_newline,
          ih (fun x hx => hwf x (List.mem_cons_of_mem _ hx))]
      · show scanReviews (p ++ '\n' :: joinLines (l' :: ls'))
          = reviewSegs (l' :: ls')
        rw [scanReviews_plain_newline (hwf _ (List.mem_cons_self _ _))
            (joinLines (l' :: ls')),
          ih (fun x hx => hwf x (List.mem_cons_of_mem _ hx))]

/-- Parsing and translating the extracted segments of a well-formed
line-structured response yields the predicted updates. -/
theorem reviewSegs_extract :
    ∀ ls : List LineSpec, (∀ l ∈ ls, wfLine l) →
      ((reviewSegs ls).filterMap parseReviewLine).filterMap updateOfParse
        = expectedUpdates ls := by
  intro ls
  induction ls with
  | nil => intro _; rfl
  | cons l ls ih =>
    intro hwf
    have ih' := ih fun x hx => hwf x (List.mem_cons_of_mem _ hx)
    rcases l with ⟨id, v, notes⟩ | ⟨p⟩
    · obtain ⟨h1, h2, h3, h4⟩ := hwf _ (List.mem_cons_self _ _)
      have hparse : parseReviewLine (canonicalReviewLine id v notes)
          = some (id, v, notes.dropWhile jsWhitespace) :=
        parseReviewLine_of_core
          (parseReviewCore_canonical id v notes h1
            (fun c hc => ⟨(h2 c hc).1, (h2 c hc).2.1⟩) h3 h4)
      show ((canonicalReviewLine id v notes ::
          reviewSegs ls).filterMap parseReviewLine).filterMap updateOfParse
        = expectedUpdates (LineSpec.review id v notes :: ls)
      cases v <;>
        simp only [List.filterMap_cons, hparse, updateOfParse,
          expectedUpdates, jsTrim_dropWhile, List.nil_append,
          List.singleton_append, List.cons_append] <;>
        rw [ih']
    · exact ih'

/-- Extraction on a well-formed line-structured response returns exactly
the non-`skip` review tuples, trimmed, in order. -/
theorem extractReviewUpdates_joinLines (ls : List LineSpec)
    (hwf : ∀ l ∈ ls, wfLine l) :
    extractReviewUpdates (joinLines ls) = expectedUpdates ls := by
  show ((scanReviews (joinLines ls)).filterMap
      parseReviewLine).filterMap updateOfParse = expectedUpdates ls
  rw [scanReviews_joinLines ls hwf]
  exact reviewSegs_extract ls hwf

/-- C6: on a response whose lines are each either a canonical
`REVIEW: [id] | outcome | notes` line or a line free of the review
keyword, extraction returns exactly the non-`skip` review tuples, with id
and notes trimmed, in order; and on the claim's concrete three-line input
the nightly transition records `abc-1` as correct, stores the lesson
`trust the trend` as a strategy note, and leaves exactly `abc-2`
pending. -/
theorem C6_review_extraction :
    (∀ ls : List LineSpec, (∀ l ∈ ls, wfLine l) →
        extractReviewUpdates (joinLines ls) = expectedUpdates ls) ∧
    c6Response = joinLines
      [LineSpec.review "abc-1".toList ReviewVerdict.correct
        "good call".toList,
       LineSpec.review "abc-2".toList ReviewVerdict.skip
        "too early".toList,
       LineSpec.plain "LESSON: trust the trend".toList] ∧
    extractReviewUpdates c6Response
      = [⟨"abc-1".toList, Outcome.correct, "good call".toList⟩] ∧
    extractLesson c6Response = some "trust the trend".toList ∧
    nightlyReviewApply 86400000 c6Response c6Perf
      = { recommendations :=
            [{ c6Rec1 with
                outcome := some Outcome.correct
                reviewedAt := some "1970-01-02T00:00:00.000Z".toList
                reviewNotes := some "good call".toList },
             c6Rec2]
          weeklyScores := []
          strategyNotes := ["[1970-01-02] trust the trend".toList]
          lastNightlyReview := "1970-01-02".toList
          lastWeeklyReview := [] } ∧
    (nightlyReviewApply 86400000 c6Response
        c6Perf).recommendations.filter
      (fun r => isPendingOutcome r.outcome) = [c6Rec2] :=
  ⟨extractReviewUpdates_joinLines, by decide, by decide, by decide,
   by decide, by decide⟩

end Neutron
